import Mathlib

/-!
Verification development for the SourceOracle repository.

Part A embeds the multi-source retrieval engine of `src/src/downloader/mod.rs`
(`get_from_cdn`, `download_file_content`, `download_from_repo`).  Network I/O is
modelled by oracles: a `RepoEnv` records, per repository, the outcome of each
remote endpoint the code can contact (the zipball endpoint, the branch-lookup
endpoint, the recursive-tree endpoint, and the per-URL CDN probes).  The Rust
code iterates a `HashMap<String, RepoType>`; a hash map's iteration order is
unspecified, so the orchestrator is modelled as a function of the iteration
order, a list of (name, type) pairs that is some permutation of the entries
inserted by the caller.

Part B embeds `process_downloaded_zip` of
`src/tauri-app/src-tauri/src/commands.rs` (extraction, classification-based
dispersal, scratch-directory cleanup).  Local file-system failures are
modelled by failure oracles (`extractFail`, `copyFail`); the happy path is the
all-false oracle.

Part C embeds the text-patching commands of the same file:
the `setManifestid` merge step of `update_game_files` and
`sync_dlcs_in_lua`, both as functions over `List Char`, with the regex
patterns of the source implemented as explicit character-level matchers.
-/

namespace SourceOracle

/-- `RepoType` of `src/src/models/mod.rs` (also `main.rs`): unknown labels
default to `Branch`. -/
inductive RepoType
  | Branch
  | Encrypted
  | Decrypted
deriving DecidableEq

/-- Outcome of one bounded-timeout GET against one URL, as classified by
`get_from_cdn` / `download_branch_zip`: a 200 response with its body, a
non-200 status, or a transport error. -/
inductive ProbeResult
  | payload (content : String)
  | miss (status : Nat)
  | transportErr (msg : String)
deriving DecidableEq

/-- Outcome of one GET against a JSON API endpoint, as handled in
`download_from_repo`: transport error (`Err(e)` from `send()`), a non-200
status, a 200 response whose JSON body fails to parse (`.json().await?`),
or a parsed value. -/
inductive ApiResult (α : Type)
  | transportErr (msg : String)
  | badStatus (status : Nat)
  | parseErr
  | ok (a : α)
deriving DecidableEq

/-- One entry of the recursive-tree listing (`TreeItem` in `models`):
`path` and `type` (only `"blob"` entries are downloaded). -/
structure TreeItem where
  path : String
  itemType : String
deriving DecidableEq

/-- Oracle for all network responses one repository can produce for the fixed
lookup key (app id): the zipball endpoint, the branch-lookup endpoint, the
tree endpoint (keyed by the sha obtained from the branch lookup), and the CDN
probes keyed by full URL. -/
structure RepoEnv where
  zipball : ProbeResult
  branches : ApiResult String
  tree : String → ApiResult (List TreeItem)
  cdn : String → ProbeResult

/-- Splits a character list at a separator, keeping empty pieces
(`n` separators give `n+1` pieces). -/
def splitChar (sep : Char) : List Char → List (List Char)
  | [] => [[]]
  | c :: rest =>
    if c = sep then [] :: splitChar sep rest
    else match splitChar sep rest with
      | [] => [[c]]
      | p :: ps => (c :: p) :: ps

/-- `url.split('/').nth(2).unwrap_or("unknown")` of `get_from_cdn`. -/
def domainOf (url : String) : String :=
  (((splitChar '/' url.data).get? 2).getD "unknown".data).asString

/-- `get_from_cdn` (src/src/downloader/mod.rs:20): one probe of one URL.
Returns the payload on a 200 response and `none` both on a non-200 status and
on a transport error, together with its log lines. -/
def get_from_cdn (probe : String → ProbeResult) (url : String) :
    Option String × List String :=
  let head := "Trying to download from " ++ domainOf url
  match probe url with
  | .payload c => (some c, [head, "[OK] Success from " ++ domainOf url])
  | .miss s =>
      (none, [head, "[FAIL] Status " ++ toString s ++ " from " ++ domainOf url])
  | .transportErr m =>
      (none, [head, "[ERROR] Failed to contact " ++ domainOf url ++ ": " ++ m])

/-- The fixed, ordered mirror-URL list of `download_file_content`
(src/src/downloader/mod.rs:56): three jsDelivr content-delivery front-ends
followed by the canonical raw.githubusercontent.com origin. -/
def mirrorUrls (repo sha path : String) : List String :=
  [ "https://gcore.jsdelivr.net/gh/" ++ repo ++ "@" ++ sha ++ "/" ++ path,
    "https://fastly.jsdelivr.net/gh/" ++ repo ++ "@" ++ sha ++ "/" ++ path,
    "https://cdn.jsdelivr.net/gh/" ++ repo ++ "@" ++ sha ++ "/" ++ path,
    "https://raw.githubusercontent.com/" ++ repo ++ "/" ++ sha ++ "/" ++ path ]

/-- The `for url in urls` loop of `download_file_content`: probes URLs in
order, stopping at the first payload.  Returns the result, the list of URLs
actually probed, and the accumulated log lines. -/
def fetchLoop (probe : String → ProbeResult) :
    List String → Option String × List String × List String
  | [] => (none, [], [])
  | u :: rest =>
    match get_from_cdn probe u with
    | (some c, lg) => (some c, [u], lg)
    | (none, lg) =>
      let (r, us, lgs) := fetchLoop probe rest
      (r, u :: us, lg ++ lgs)

/-- `download_file_content` (src/src/downloader/mod.rs:47): tries the fixed
mirror list in order; on total failure logs a terminal line naming the path. -/
def download_file_content (probe : String → ProbeResult)
    (repo sha path : String) : Option String × List String × List String :=
  let head := "Trying to download: " ++ path ++ " from repo " ++ repo
  let (r, us, lgs) := fetchLoop probe (mirrorUrls repo sha path)
  match r with
  | some c => (some c, us, head :: lgs)
  | none =>
      (none, us,
        head :: lgs ++ ["[TOTAL FAILURE] Could not download file: " ++ path])

/-- Number of files of an enumerated repository attempt that are written to
the temp directory: one per blob path whose mirror-fallback fetch yields a
payload (src/src/downloader/mod.rs:220-243). -/
def filesWritten (e : RepoEnv) (repo sha : String) (paths : List String) : Nat :=
  (paths.filter
    (fun p => (download_file_content e.cdn repo sha p).1.isSome)).length

/-- What one iteration of the repository loop of `download_from_repo` does
with the current entry. -/
inductive EntryResult
  | success
  | soft
  | hard
deriving DecidableEq

/-- One iteration of the repository loop of `download_from_repo`
(src/src/downloader/mod.rs:120-252).  `Branch` entries try the zipball
endpoint: payload means success (saving or dispersing the archive cannot
revert it), anything else falls through to the next repository.  Other
entries resolve the branch sha, list the tree, and fetch every blob through
the mirror chain: a non-200 status or transport error at either API call
falls through to the next repository (`continue`), while a 200 response
whose JSON body fails to parse propagates out of the whole function
(`response.json::<..>().await?`); the attempt succeeds when at least one
file was written. -/
def classifyEntry (e : RepoEnv) (ty : RepoType) (repo : String) : EntryResult :=
  if ty = RepoType.Branch then
    match e.zipball with
    | .payload _ => .success
    | .miss _ => .soft
    | .transportErr _ => .soft
  else
    match e.branches with
    | .transportErr _ => .soft
    | .badStatus _ => .soft
    | .parseErr => .hard
    | .ok sha =>
      match e.tree sha with
      | .transportErr _ => .soft
      | .badStatus _ => .soft
      | .parseErr => .hard
      | .ok items =>
        let blobs := (items.filter (fun it => it.itemType = "blob")).map (·.path)
        if 0 < filesWritten e repo sha blobs then .success else .soft

/-- Final outcome of `download_from_repo`: `Ok(true)`, `Ok(false)` after
exhausting every repository, or an `Err` propagated by `?`. -/
inductive Outcome
  | success
  | exhausted
  | error
deriving DecidableEq

/-- `download_from_repo` (src/src/downloader/mod.rs:106): iterates the
repository map in its iteration order (`repos`), returning at the first
successful entry; a hard error aborts the whole run.  Also returns the names
of the repositories tried, in order. -/
def download_from_repo (env : String → RepoEnv) :
    List (String × RepoType) → Outcome × List String
  | [] => (.exhausted, [])
  | (name, ty) :: rest =>
    match classifyEntry (env name) ty name with
    | .success => (.success, [name])
    | .hard => (.error, [name])
    | .soft =>
      let (r, t) := download_from_repo env rest
      (r, name :: t)

/-! ### Part A lemmas -/

/-- `true` exactly on a 200 response. -/
def isPayload : ProbeResult → Bool
  | .payload _ => true
  | _ => false

theorem fetchLoop_all_miss (probe : String → ProbeResult) (us : List String)
    (h : ∀ v ∈ us, isPayload (probe v) = false) :
    ∃ lgs, fetchLoop probe us = (none, us, lgs) := by
  induction us with
  | nil => exact ⟨[], rfl⟩
  | cons u rest ih =>
    obtain ⟨lgs, hrest⟩ := ih (fun v hv => h v (List.mem_cons_of_mem u hv))
    cases hu : probe u with
    | payload c =>
      have hc := h u (List.mem_cons_self u rest)
      rw [hu] at hc
      simp [isPayload] at hc
    | miss s =>
      exact ⟨_, by simp only [fetchLoop, get_from_cdn, hu, List.append_eq, hrest]; rfl⟩
    | transportErr m =>
      exact ⟨_, by simp only [fetchLoop, get_from_cdn, hu, List.append_eq, hrest]; rfl⟩

theorem fetchLoop_first_payload (probe : String → ProbeResult)
    (us1 : List String) (u : String) (us2 : List String) (c : String)
    (h1 : ∀ v ∈ us1, isPayload (probe v) = false)
    (h2 : probe u = .payload c) :
    ∃ lgs, fetchLoop probe (us1 ++ u :: us2) = (some c, us1 ++ [u], lgs) := by
  induction us1 with
  | nil =>
    exact ⟨_, by simp only [List.nil_append, fetchLoop, get_from_cdn, h2]; rfl⟩
  | cons v rest ih =>
    obtain ⟨lgs, hrest⟩ := ih (fun w hw => h1 w (List.mem_cons_of_mem v hw))
    cases hv : probe v with
    | payload c0 =>
      have hc := h1 v (List.mem_cons_self v rest)
      rw [hv] at hc
      simp [isPayload] at hc
    | miss s =>
      exact ⟨_, by
        simp only [List.cons_append, fetchLoop, get_from_cdn, hv,
          List.append_eq, hrest]
        rfl⟩
    | transportErr m =>
      exact ⟨_, by
        simp only [List.cons_append, fetchLoop, get_from_cdn, hv,
          List.append_eq, hrest]
        rfl⟩

/-! ### Claim C4 -/

/-- C4: in `download_file_content`, the mirror URL list is fixed and ordered,
with three content-delivery mirrors plus the canonical
raw.githubusercontent.com origin last; mirrors are probed strictly in
declared order; the first payload is returned immediately (no later mirror is
probed); and only when every mirror yields a miss or transport error does the
call return `none`, after logging a terminal total-failure line naming the
path. -/
theorem mirror_fallback_order (probe : String → ProbeResult)
    (repo sha path : String) :
    (mirrorUrls repo sha path).length = 4 ∧
    (mirrorUrls repo sha path).getLast? =
      some ("https://raw.githubusercontent.com/" ++ repo ++ "/" ++ sha ++ "/" ++ path) ∧
    (∀ us1 u us2 c, mirrorUrls repo sha path = us1 ++ u :: us2 →
      (∀ v ∈ us1, isPayload (probe v) = false) →
      probe u = .payload c →
      (download_file_content probe repo sha path).1 = some c ∧
      (download_file_content probe repo sha path).2.1 = us1 ++ [u]) ∧
    ((∀ v ∈ mirrorUrls repo sha path, isPayload (probe v) = false) →
      (download_file_content probe repo sha path).1 = none ∧
      (download_file_content probe repo sha path).2.1 = mirrorUrls repo sha path ∧
      ("[TOTAL FAILURE] Could not download file: " ++ path) ∈
        (download_file_content probe repo sha path).2.2) := by
  refine ⟨rfl, rfl, ?_, ?_⟩
  · intro us1 u us2 c hsplit h1 h2
    obtain ⟨lgs, hl⟩ := fetchLoop_first_payload probe us1 u us2 c h1 h2
    rw [← hsplit] at hl
    constructor <;> simp only [download_file_content, hl]
  · intro h
    obtain ⟨lgs, hl⟩ := fetchLoop_all_miss probe (mirrorUrls repo sha path) h
    refine ⟨?_, ?_, ?_⟩ <;> simp [download_file_content, hl]

/-- Witness for `mirror_fallback_order`: a probe where the first mirror
misses, the second answers, and the remaining two are never probed. -/
def probeSecond : String → ProbeResult := fun u =>
  if u = "https://fastly.jsdelivr.net/gh/owner/repo@abc123/dir/file.lua" then
    .payload "CONTENT"
  else .miss 404

theorem mirror_fallback_order_witness :
    (download_file_content probeSecond "owner/repo" "abc123" "dir/file.lua").1 =
      some "CONTENT" ∧
    (download_file_content probeSecond "owner/repo" "abc123" "dir/file.lua").2.1 =
      [ "https://gcore.jsdelivr.net/gh/owner/repo@abc123/dir/file.lua",
        "https://fastly.jsdelivr.net/gh/owner/repo@abc123/dir/file.lua" ] :=
  (mirror_fallback_order probeSecond "owner/repo" "abc123" "dir/file.lua").2.2.1
    ["https://gcore.jsdelivr.net/gh/owner/repo@abc123/dir/file.lua"]
    "https://fastly.jsdelivr.net/gh/owner/repo@abc123/dir/file.lua"
    [ "https://cdn.jsdelivr.net/gh/owner/repo@abc123/dir/file.lua",
      "https://raw.githubusercontent.com/owner/repo/abc123/dir/file.lua" ]
    "CONTENT" (by decide) (by decide) (by decide)

/-! ### Claim C5 -/

/-- C5: the orchestrator commits to at most one successful repository entry:
a `Branch` (archive) entry that yields a payload, or an enumerated entry that
writes at least one file, returns success immediately with no remaining entry
tried; an enumerated entry that writes zero files is not a success and the
next entry is tried. -/
theorem orchestrator_single_success (env : String → RepoEnv)
    (name : String) (ty : RepoType) (rest : List (String × RepoType)) :
    (∀ c, ty = .Branch → (env name).zipball = .payload c →
      download_from_repo env ((name, ty) :: rest) = (.success, [name])) ∧
    (∀ sha items, ty ≠ .Branch → (env name).branches = .ok sha →
      (env name).tree sha = .ok items →
      0 < filesWritten (env name) name sha
        ((items.filter (fun it => it.itemType = "blob")).map (·.path)) →
      download_from_repo env ((name, ty) :: rest) = (.success, [name])) ∧
    (∀ sha items, ty ≠ .Branch → (env name).branches = .ok sha →
      (env name).tree sha = .ok items →
      filesWritten (env name) name sha
        ((items.filter (fun it => it.itemType = "blob")).map (·.path)) = 0 →
      download_from_repo env ((name, ty) :: rest) =
        ((download_from_repo env rest).1,
          name :: (download_from_repo env rest).2)) := by
  refine ⟨?_, ?_, ?_⟩
  · intro c hty hz
    subst hty
    simp [download_from_repo, classifyEntry, hz]
  · intro sha items hty hb ht hw
    simp [download_from_repo, classifyEntry, if_neg hty, hb, ht, hw]
  · intro sha items hty hb ht hw
    simp [download_from_repo, classifyEntry, if_neg hty, hb, ht, hw]

/-- Environment for witnesses: one repository whose zipball endpoint answers,
all other endpoints failing softly. -/
def envSoftThenZip : String → RepoEnv := fun n =>
  if n = "SteamAutoCracks/ManifestHub" then
    { zipball := .payload "ZIPBYTES", branches := .badStatus 404,
      tree := fun _ => .badStatus 404, cdn := fun _ => .miss 404 }
  else
    { zipball := .miss 404, branches := .badStatus 404,
      tree := fun _ => .badStatus 404, cdn := fun _ => .transportErr "timeout" }

theorem orchestrator_single_success_witness :
    download_from_repo envSoftThenZip
      [("SteamAutoCracks/ManifestHub", RepoType.Branch),
       ("ManifestHub/ManifestHub", RepoType.Decrypted)] =
      (.success, ["SteamAutoCracks/ManifestHub"]) :=
  (orchestrator_single_success envSoftThenZip "SteamAutoCracks/ManifestHub"
    RepoType.Branch [("ManifestHub/ManifestHub", RepoType.Decrypted)]).1
    "ZIPBYTES" rfl (by decide)

/-! ### Claim C1 -/

/-- Environment where every repository's zipball endpoint yields a payload. -/
def envAllZip : String → RepoEnv := fun _ =>
  { zipball := .payload "ZIPBYTES", branches := .parseErr,
    tree := fun _ => .parseErr, cdn := fun _ => .miss 404 }

/-- C1 counterexample: the repository collection is a `HashMap`, whose
iteration order is unspecified and need not match the caller's insertion
order.  With the CLI's insertion order
`[Fairyvmos/bruh-hub, SteamAutoCracks/ManifestHub]` and a legitimate hash-map
iteration order that happens to be the reverse permutation, the first
repository tried is `SteamAutoCracks/ManifestHub`, not the caller's
first-priority entry — so "tried in the caller-supplied priority order" fails
even though the sequential first-success-halts behaviour holds. -/
theorem repo_priority_order_counterexample :
    List.Perm
      [("SteamAutoCracks/ManifestHub", RepoType.Branch),
       ("Fairyvmos/bruh-hub", RepoType.Branch)]
      [("Fairyvmos/bruh-hub", RepoType.Branch),
       ("SteamAutoCracks/ManifestHub", RepoType.Branch)] ∧
    (download_from_repo envAllZip
      [("SteamAutoCracks/ManifestHub", RepoType.Branch),
       ("Fairyvmos/bruh-hub", RepoType.Branch)]).2 =
      ["SteamAutoCracks/ManifestHub"] ∧
    ["SteamAutoCracks/ManifestHub"] ≠ ["Fairyvmos/bruh-hub"] := by
  refine ⟨by decide, by decide, by decide⟩

/-- C1 amended: repositories are tried strictly sequentially in the hash
map's iteration order (not necessarily the caller's insertion order), and the
first satisfying entry wins and halts the search: after any run of entries
that fail softly, a successful entry ends the run with exactly those entries
tried. -/
theorem repos_tried_sequentially (env : String → RepoEnv)
    (pre post : List (String × RepoType)) (name : String) (ty : RepoType)
    (hpre : ∀ p ∈ pre, classifyEntry (env p.1) p.2 p.1 = .soft)
    (hsucc : classifyEntry (env name) ty name = .success) :
    download_from_repo env (pre ++ (name, ty) :: post) =
      (.success, pre.map Prod.fst ++ [name]) := by
  induction pre with
  | nil => simp only [List.nil_append, download_from_repo, hsucc, List.map_nil]
  | cons p rest ih =>
    obtain ⟨pn, pty⟩ := p
    have hp := hpre (pn, pty) (List.mem_cons_self _ rest)
    have hih := ih (fun q hq => hpre q (List.mem_cons_of_mem _ hq))
    simp only [List.cons_append, download_from_repo, hp, List.map_cons,
      List.append_eq, hih]

theorem repos_tried_sequentially_witness :
    download_from_repo envSoftThenZip
      [("ManifestHub/ManifestHub", RepoType.Branch),
       ("SteamAutoCracks/ManifestHub", RepoType.Branch)] =
      (.success, ["ManifestHub/ManifestHub", "SteamAutoCracks/ManifestHub"]) :=
  repos_tried_sequentially envSoftThenZip
    [("ManifestHub/ManifestHub", RepoType.Branch)] []
    "SteamAutoCracks/ManifestHub" RepoType.Branch (by decide) (by decide)

/-! ### Claim C2 -/

/-- Environment where the first repository resolves its branch but the tree
response is a 200 whose JSON body does not parse, while the second
repository's zipball endpoint would succeed. -/
def envParseErrThenZip : String → RepoEnv := fun n =>
  if n = "ManifestHub/ManifestHub" then
    { zipball := .miss 404, branches := .ok "abc123",
      tree := fun _ => .parseErr, cdn := fun _ => .miss 404 }
  else
    { zipball := .payload "ZIPBYTES", branches := .parseErr,
      tree := fun _ => .parseErr, cdn := fun _ => .miss 404 }

/-- C2 counterexample: a response that arrives with success status but whose
JSON body does not parse does NOT abort only the current repository — the
`?` on `response.json::<TreeResponse>().await?` propagates the error out of
`download_from_repo`, terminating the whole run: the next repository, whose
zipball endpoint would have succeeded, is never tried. -/
theorem enumerated_parse_failure_counterexample :
    download_from_repo envParseErrThenZip
      [("ManifestHub/ManifestHub", RepoType.Decrypted),
       ("Fairyvmos/bruh-hub", RepoType.Branch)] =
      (.error, ["ManifestHub/ManifestHub"]) ∧
    (Outcome.error ≠ Outcome.success) ∧
    "Fairyvmos/bruh-hub" ∉
      (download_from_repo envParseErrThenZip
        [("ManifestHub/ManifestHub", RepoType.Decrypted),
         ("Fairyvmos/bruh-hub", RepoType.Branch)]).2 := by
  refine ⟨by decide, by decide, by decide⟩

/-- C2 amended: for an enumerated-strategy repository attempt, a non-200
status or a transport error at either the revision resolution or the tree
listing aborts only the current repository (the orchestrator moves on), but a
response that arrives with success status and whose JSON body does not parse
terminates the whole run with an error. -/
theorem enumerated_resolver_failure_scope (env : String → RepoEnv)
    (name : String) (ty : RepoType) (rest : List (String × RepoType))
    (hty : ty ≠ .Branch) :
    (((∃ m, (env name).branches = .transportErr m) ∨
      (∃ s, (env name).branches = .badStatus s) ∨
      (∃ sha, (env name).branches = .ok sha ∧
        ((∃ m, (env name).tree sha = .transportErr m) ∨
         (∃ s, (env name).tree sha = .badStatus s)))) →
      download_from_repo env ((name, ty) :: rest) =
        ((download_from_repo env rest).1,
          name :: (download_from_repo env rest).2)) ∧
    (((env name).branches = .parseErr ∨
      (∃ sha, (env name).branches = .ok sha ∧ (env name).tree sha = .parseErr)) →
      download_from_repo env ((name, ty) :: rest) = (.error, [name])) := by
  constructor
  · rintro (⟨m, hb⟩ | ⟨s, hb⟩ | ⟨sha, hb, (⟨m, ht⟩ | ⟨s, ht⟩)⟩)
    · simp [download_from_repo, classifyEntry, if_neg hty, hb]
    · simp [download_from_repo, classifyEntry, if_neg hty, hb]
    · simp [download_from_repo, classifyEntry, if_neg hty, hb, ht]
    · simp [download_from_repo, classifyEntry, if_neg hty, hb, ht]
  · rintro (hb | ⟨sha, hb, ht⟩)
    · simp [download_from_repo, classifyEntry, if_neg hty, hb]
    · simp [download_from_repo, classifyEntry, if_neg hty, hb, ht]

theorem enumerated_resolver_failure_scope_witness :
    download_from_repo envSoftThenZip
      [("ManifestHub/ManifestHub", RepoType.Decrypted),
       ("SteamAutoCracks/ManifestHub", RepoType.Branch)] =
      (.success,
        ["ManifestHub/ManifestHub", "SteamAutoCracks/ManifestHub"]) := by
  have h := (enumerated_resolver_failure_scope envSoftThenZip
    "ManifestHub/ManifestHub" RepoType.Decrypted
    [("SteamAutoCracks/ManifestHub", RepoType.Branch)] (by decide)).1
    (Or.inr (Or.inl ⟨404, by decide⟩))
  exact h.trans (by decide)

/-!
### Part B: `process_downloaded_zip` (src/tauri-app/src-tauri/src/commands.rs:411)

The function extracts every archive entry into a fresh scratch directory,
walks the extracted tree, copies each regular file into destination
directories by extension (`lua` → stplug-in, `bin` → StatsExport) and,
independently, by the case-insensitive name substring `manifest`
(→ depotcache), counts the copies per category, and removes the scratch
directory at the very end.  Every fallible file operation uses `?`, so an
extraction or copy failure returns early.  I/O failures are modelled by the
oracles `extractFail` (File::create/io::copy during extraction, keyed by
entry name) and `copyFail` (fs::copy during routing, keyed by source path
and destination directory name).  Destination directories are association
lists from file name to content; `fs::copy` overwrites, which `upsertA`
mirrors.  `WalkDir` visits files depth-first in an unspecified sibling
order; the model routes the extracted files in extraction order, and the
order-sensitive theorem below is stated for an arbitrary visiting order.
-/

/-- One entry of the downloaded zip archive: its internal name (directory
entries end in `/`) and its content. -/
structure ZipEntry where
  name : String
  content : String
deriving DecidableEq

/-- `file.name().ends_with('/')`: a directory-marker entry. -/
def isDirEntry (e : ZipEntry) : Bool := e.name.data.getLast? == some '/'

/-- `path.file_name()`: the component after the last `/`. -/
def baseName (p : String) : String :=
  (((splitChar '/' p.data).getLast?).getD p.data).asString

/-- `path.extension()`: the part of the file name after the last dot; `none`
when there is no dot or when the only dot is the leading one of a hidden
file. -/
def extOf (fname : String) : Option String :=
  match splitChar '.' fname.data with
  | [] => none
  | [_] => none
  | first :: more =>
    if first.isEmpty ∧ more.length = 1 then none
    else (more.getLast?).map List.asString

/-- Whether `needle` occurs as a contiguous substring of `haystack`. -/
def containsSub (needle haystack : List Char) : Bool :=
  (List.range (haystack.length + 1)).any
    (fun i => needle.isPrefixOf (haystack.drop i))

/-- `file_name.to_lowercase().contains("manifest")`. -/
def isManifestName (fname : String) : Bool :=
  containsSub "manifest".data (fname.data.map Char.toLower)

/-- Association-list update with overwrite, modelling a copy into a flat
destination directory (`fs::copy` truncates an existing target). -/
def upsertA : List (String × String) → String → String → List (String × String)
  | [], k, v => [(k, v)]
  | kv :: rest, k, v =>
    if kv.1 = k then (k, v) :: rest else kv :: upsertA rest k v

/-- Association-list lookup, modelling reading a destination directory. -/
def lookupA : List (String × String) → String → Option String
  | [], _ => none
  | kv :: rest, k => if kv.1 = k then some kv.2 else lookupA rest k

/-- Counters and destination directories of one dispersal run. -/
structure DispersalState where
  luaCount : Nat
  manifestCount : Nat
  binCount : Nat
  stplugin : List (String × String)
  statsexport : List (String × String)
  depotcache : List (String × String)
deriving DecidableEq

/-- The state at the start of a dispersal run: zero counters, no copies. -/
def initState : DispersalState := ⟨0, 0, 0, [], [], []⟩

/-- The extraction loop (commands.rs:424-439): each entry in order; a
directory marker only creates directories; a file entry is written into the
scratch directory (overwriting an earlier entry of the same name); a failing
write aborts the whole function. -/
def extractLoop (extractFail : String → Bool)
    (acc : List (String × String)) :
    List ZipEntry → Option (List (String × String))
  | [] => some acc
  | e :: rest =>
    if isDirEntry e then extractLoop extractFail acc rest
    else if extractFail e.name then none
    else extractLoop extractFail (upsertA acc e.name e.content) rest

/-- The extension rule of the routing loop (commands.rs:467-479):
`lua` → stplug-in with `lua_count`, `bin` → StatsExport with `bin_count`;
a failing `fs::copy` aborts. -/
def routeExt (copyFail : String → String → Bool) (st : DispersalState)
    (p c : String) : Option DispersalState :=
  match extOf (baseName p) with
  | some e =>
    if e = "lua" then
      if copyFail p "stplug-in" then none
      else some { st with luaCount := st.luaCount + 1,
                          stplugin := upsertA st.stplugin (baseName p) c }
    else if e = "bin" then
      if copyFail p "StatsExport" then none
      else some { st with binCount := st.binCount + 1,
                          statsexport := upsertA st.statsexport (baseName p) c }
    else some st
  | none => some st

/-- The independent manifest-name rule of the routing loop
(commands.rs:481-487): case-insensitive substring `manifest` → depotcache
with `manifest_count`; a failing `fs::copy` aborts. -/
def routeManifest (copyFail : String → String → Bool) (st : DispersalState)
    (p c : String) : Option DispersalState :=
  if isManifestName (baseName p) then
    if copyFail p "depotcache" then none
    else some { st with manifestCount := st.manifestCount + 1,
                        depotcache := upsertA st.depotcache (baseName p) c }
  else some st

/-- Routing of one regular file (commands.rs:461-488): the extension rule
followed by the independent manifest-name rule; either failing copy aborts. -/
def routeFile (copyFail : String → String → Bool) (st : DispersalState)
    (p c : String) : Option DispersalState :=
  (routeExt copyFail st p c).bind
    (fun st1 => routeManifest copyFail st1 p c)

/-- The routing walk over the extracted files, in visiting order. -/
def routeFiles (copyFail : String → String → Bool) (st : DispersalState) :
    List (String × String) → Option DispersalState
  | [] => some st
  | (p, c) :: rest =>
    match routeFile copyFail st p c with
    | none => none
    | some st1 => routeFiles copyFail st1 rest

/-- Result of `process_downloaded_zip`: the final dispersal state (`none`
when the function returned early with an error) and whether the scratch
directory was removed. -/
structure ZipResult where
  result : Option DispersalState
  scratchRemoved : Bool
deriving DecidableEq

/-- `process_downloaded_zip` (commands.rs:411-502): create the scratch
directory, extract every entry, route every extracted file, then remove the
scratch directory.  The removal (`fs::remove_dir_all(&temp_dir)?`) is the
last statement before `Ok(())`: it runs only when extraction and routing
both succeeded, since every earlier failure returns with `?` first. -/
def process_downloaded_zip (extractFail : String → Bool)
    (copyFail : String → String → Bool) (entries : List ZipEntry) :
    ZipResult :=
  match extractLoop extractFail [] entries with
  | none => ⟨none, false⟩
  | some scratch =>
    match routeFiles copyFail initState scratch with
    | none => ⟨none, false⟩
    | some st => ⟨some st, true⟩

/-- The happy-path oracle: no extraction write fails. -/
def noExtractFail : String → Bool := fun _ => false

/-- The happy-path oracle: no routing copy fails. -/
def noCopyFail : String → String → Bool := fun _ _ => false

/-! ### Part B lemmas -/

theorem lookupA_upsertA_self (m : List (String × String)) (k v : String) :
    lookupA (upsertA m k v) k = some v := by
  induction m with
  | nil => simp [upsertA, lookupA]
  | cons kv rest ih =>
    by_cases hk : kv.1 = k
    · simp [upsertA, lookupA, hk]
    · simp [upsertA, lookupA, hk, ih]

theorem lookupA_upsertA_ne (m : List (String × String)) (k v k' : String)
    (h : k' ≠ k) :
    lookupA (upsertA m k v) k' = lookupA m k' := by
  have hne : k ≠ k' := Ne.symm h
  induction m with
  | nil => simp [upsertA, lookupA, hne]
  | cons kv rest ih =>
    by_cases hk : kv.1 = k
    · have hk' : ¬kv.1 = k' := fun e => hne (hk ▸ e)
      simp [upsertA, lookupA, hk, hne, hk']
    · simp only [upsertA, if_neg hk, lookupA]
      by_cases hv : kv.1 = k'
      · simp [hv]
      · simp [hv, ih]

theorem routeExt_noFail (st : DispersalState) (p c : String) :
    ∃ st1, routeExt noCopyFail st p c = some st1 := by
  unfold routeExt noCopyFail
  cases extOf (baseName p) with
  | none => exact ⟨st, rfl⟩
  | some e =>
    by_cases h1 : e = "lua"
    · exact ⟨_, by simp [h1]; rfl⟩
    · by_cases h2 : e = "bin"
      · exact ⟨_, by simp [h1, h2]; rfl⟩
      · exact ⟨st, by simp [h1, h2]⟩

theorem routeManifest_noFail (st : DispersalState) (p c : String) :
    ∃ st1, routeManifest noCopyFail st p c = some st1 := by
  unfold routeManifest noCopyFail
  by_cases h : isManifestName (baseName p)
  · exact ⟨_, by simp [h]; rfl⟩
  · exact ⟨st, by simp [h]⟩

theorem routeFile_noFail (st : DispersalState) (p c : String) :
    ∃ st1, routeFile noCopyFail st p c = some st1 := by
  obtain ⟨st1, h1⟩ := routeExt_noFail st p c
  obtain ⟨st2, h2⟩ := routeManifest_noFail st1 p c
  exact ⟨st2, by simp [routeFile, h1, h2]⟩

theorem routeFiles_noFail (fs : List (String × String)) :
    ∀ st, ∃ st1, routeFiles noCopyFail st fs = some st1 := by
  induction fs with
  | nil => exact fun st => ⟨st, rfl⟩
  | cons qc rest ih =>
    intro st
    obtain ⟨q, cq⟩ := qc
    obtain ⟨stq, hq⟩ := routeFile_noFail st q cq
    obtain ⟨st1, h1⟩ := ih stq
    exact ⟨st1, by simp only [routeFiles, hq, h1]⟩

theorem routeExt_stplugin_lua (st : DispersalState) (p c : String)
    (h : extOf (baseName p) = some "lua") :
    routeExt noCopyFail st p c =
      some { st with luaCount := st.luaCount + 1,
                     stplugin := upsertA st.stplugin (baseName p) c } := by
  simp [routeExt, noCopyFail, h]

theorem routeExt_statsexport_bin (st : DispersalState) (p c : String)
    (h : extOf (baseName p) = some "bin") :
    routeExt noCopyFail st p c =
      some { st with binCount := st.binCount + 1,
                     statsexport := upsertA st.statsexport (baseName p) c } := by
  simp [routeExt, noCopyFail, h]

theorem routeManifest_depotcache (st : DispersalState) (p c : String)
    (h : isManifestName (baseName p) = true) :
    routeManifest noCopyFail st p c =
      some { st with manifestCount := st.manifestCount + 1,
                     depotcache := upsertA st.depotcache (baseName p) c } := by
  simp [routeManifest, noCopyFail, h]

theorem routeManifest_fields (st : DispersalState) (p c : String)
    (st1 : DispersalState) (h : routeManifest noCopyFail st p c = some st1) :
    st1.stplugin = st.stplugin ∧ st1.statsexport = st.statsexport := by
  unfold routeManifest noCopyFail at h
  by_cases hm : isManifestName (baseName p) <;> simp [hm] at h <;>
    rw [← h] <;> exact ⟨rfl, rfl⟩

theorem routeExt_depotcache (st : DispersalState) (p c : String)
    (stm : DispersalState) (h : routeExt noCopyFail st p c = some stm) :
    stm.depotcache = st.depotcache := by
  unfold routeExt noCopyFail at h
  cases hx : extOf (baseName p) with
  | none => rw [hx] at h; simp at h; rw [← h]
  | some e =>
    rw [hx] at h
    by_cases h1 : e = "lua"
    · simp [h1] at h; rw [← h]
    · by_cases h2 : e = "bin"
      · simp [h1, h2] at h; rw [← h]
      · simp [h1, h2] at h; rw [← h]

theorem routeFile_stplugin_lua (st : DispersalState) (p c : String)
    (h : extOf (baseName p) = some "lua") (st1 : DispersalState)
    (h1 : routeFile noCopyFail st p c = some st1) :
    st1.stplugin = upsertA st.stplugin (baseName p) c := by
  unfold routeFile at h1
  rw [routeExt_stplugin_lua st p c h] at h1
  exact (routeManifest_fields _ p c st1 h1).1

theorem routeFile_statsexport_bin (st : DispersalState) (p c : String)
    (h : extOf (baseName p) = some "bin") (st1 : DispersalState)
    (h1 : routeFile noCopyFail st p c = some st1) :
    st1.statsexport = upsertA st.statsexport (baseName p) c := by
  unfold routeFile at h1
  rw [routeExt_statsexport_bin st p c h] at h1
  exact (routeManifest_fields _ p c st1 h1).2

theorem routeFile_depotcache_manifest (st : DispersalState) (p c : String)
    (h : isManifestName (baseName p) = true) (st1 : DispersalState)
    (h1 : routeFile noCopyFail st p c = some st1) :
    st1.depotcache = upsertA st.depotcache (baseName p) c := by
  unfold routeFile at h1
  obtain ⟨stm, hm⟩ := routeExt_noFail st p c
  rw [hm] at h1
  have h2 : routeManifest noCopyFail stm p c = some st1 := h1
  rw [routeManifest_depotcache stm p c h] at h2
  simp only [Option.some_inj] at h2
  rw [← h2]
  show upsertA stm.depotcache (baseName p) c = _
  rw [routeExt_depotcache st p c stm hm]

theorem routeExt_lookup_preserve (st : DispersalState) (p c : String)
    (stm : DispersalState) (n : String) (hne : n ≠ baseName p)
    (h : routeExt noCopyFail st p c = some stm) :
    lookupA stm.stplugin n = lookupA st.stplugin n ∧
    lookupA stm.statsexport n = lookupA st.statsexport n ∧
    stm.depotcache = st.depotcache := by
  unfold routeExt noCopyFail at h
  cases hx : extOf (baseName p) with
  | none => rw [hx] at h; simp at h; rw [← h]; exact ⟨rfl, rfl, rfl⟩
  | some e =>
    rw [hx] at h
    by_cases h1 : e = "lua"
    · simp [h1] at h
      rw [← h]
      exact ⟨lookupA_upsertA_ne _ _ _ _ hne, rfl, rfl⟩
    · by_cases h2 : e = "bin"
      · simp [h1, h2] at h
        rw [← h]
        exact ⟨rfl, lookupA_upsertA_ne _ _ _ _ hne, rfl⟩
      · simp [h1, h2] at h
        rw [← h]
        exact ⟨rfl, rfl, rfl⟩

theorem routeFile_lookup_preserve (st : DispersalState) (p c : String)
    (st1 : DispersalState) (n : String) (hne : n ≠ baseName p)
    (h : routeFile noCopyFail st p c = some st1) :
    lookupA st1.stplugin n = lookupA st.stplugin n ∧
    lookupA st1.statsexport n = lookupA st.statsexport n ∧
    lookupA st1.depotcache n = lookupA st.depotcache n := by
  unfold routeFile at h
  obtain ⟨stm, hm⟩ := routeExt_noFail st p c
  rw [hm] at h
  have hh : routeManifest noCopyFail stm p c = some st1 := h
  obtain ⟨he1, he2, he3⟩ := routeExt_lookup_preserve st p c stm n hne hm
  have hf := routeManifest_fields stm p c st1 hh
  refine ⟨(hf.1 ▸ he1 : _), (hf.2 ▸ he2 : _), ?_⟩
  unfold routeManifest noCopyFail at hh
  by_cases hman : isManifestName (baseName p)
  · simp [hman] at hh
    rw [← hh]
    show lookupA (upsertA stm.depotcache (baseName p) c) n = _
    rw [lookupA_upsertA_ne _ _ _ _ hne, he3]
  · simp [hman] at hh
    rw [← hh]
    show lookupA stm.depotcache n = _
    rw [he3]

theorem routeFiles_lookup_preserve (ys : List (String × String)) (n : String)
    (hys : ∀ q ∈ ys, baseName q.1 ≠ n) :
    ∀ st st1, routeFiles noCopyFail st ys = some st1 →
      lookupA st1.stplugin n = lookupA st.stplugin n ∧
      lookupA st1.statsexport n = lookupA st.statsexport n ∧
      lookupA st1.depotcache n = lookupA st.depotcache n := by
  induction ys with
  | nil =>
    intro st st1 h
    simp only [routeFiles, Option.some_inj] at h
    rw [h]
    exact ⟨rfl, rfl, rfl⟩
  | cons qc rest ih =>
    intro st st1 h
    obtain ⟨q, cq⟩ := qc
    simp only [routeFiles] at h
    cases hq : routeFile noCopyFail st q cq with
    | none => rw [hq] at h; exact absurd h (by simp)
    | some stq =>
      rw [hq] at h
      have hne : n ≠ baseName q :=
        Ne.symm (hys (q, cq) (List.mem_cons_self _ rest))
      obtain ⟨p1, p2, p3⟩ := routeFile_lookup_preserve st q cq stq n hne hq
      obtain ⟨r1, r2, r3⟩ :=
        ih (fun w hw => hys w (List.mem_cons_of_mem _ hw)) stq st1 h
      exact ⟨r1.trans p1, r2.trans p2, r3.trans p3⟩

theorem routeFiles_append (cf : String → String → Bool) (st : DispersalState)
    (as bs : List (String × String)) :
    routeFiles cf st (as ++ bs) =
      (routeFiles cf st as).bind (fun stm => routeFiles cf stm bs) := by
  induction as generalizing st with
  | nil => simp [routeFiles]
  | cons qc rest ih =>
    obtain ⟨q, cq⟩ := qc
    simp only [List.cons_append, routeFiles]
    cases routeFile cf st q cq with
    | none => rfl
    | some stq => exact ih stq

/-! ### Claim C3 -/

/-- The archive of the spec's dispersal example: the regular files `a.lua`,
`b.manifest`, `c.bin`, `d_manifest.lua`. -/
def exampleArchive : List ZipEntry :=
  [⟨"a.lua", "A"⟩, ⟨"b.manifest", "B"⟩, ⟨"c.bin", "C"⟩, ⟨"d_manifest.lua", "D"⟩]

/-- C3 counterexample: on the example archive the counts are lua=2,
manifest=2, bin=1 — not manifest=1 as claimed.  `b.manifest` and
`d_manifest.lua` both contain the substring `manifest`, and each copy to the
depot-cache directory increments `manifest_count`, so the claimed counts are
internally inconsistent with the (correct) statement that `d_manifest.lua`
is also copied to the depot-cache directory. -/
theorem disperse_manifest_count_counterexample :
    ((process_downloaded_zip noExtractFail noCopyFail exampleArchive).result.map
      (fun st => (st.luaCount, st.manifestCount, st.binCount))) = some (2, 2, 1) ∧
    some ((2 : Nat), (2 : Nat), (1 : Nat)) ≠ some ((2 : Nat), (1 : Nat), (1 : Nat)) :=
  ⟨by decide, by decide⟩

/-- C3 amended: on the example archive the counts are lua=2, manifest=2,
bin=1, with `d_manifest.lua` copied to both the plugin directory (extension
rule) and the depot-cache directory (name-substring rule), `a.lua` to the
plugin directory, `b.manifest` to the depot-cache directory, and `c.bin` to
the stats directory. -/
theorem disperse_example_amended :
    ((process_downloaded_zip noExtractFail noCopyFail exampleArchive).result.map
      (fun st => (st.luaCount, st.manifestCount, st.binCount))) = some (2, 2, 1) ∧
    ((process_downloaded_zip noExtractFail noCopyFail exampleArchive).result.map
      (fun st => lookupA st.stplugin "d_manifest.lua")) = some (some "D") ∧
    ((process_downloaded_zip noExtractFail noCopyFail exampleArchive).result.map
      (fun st => lookupA st.depotcache "d_manifest.lua")) = some (some "D") ∧
    ((process_downloaded_zip noExtractFail noCopyFail exampleArchive).result.map
      (fun st => lookupA st.depotcache "b.manifest")) = some (some "B") ∧
    ((process_downloaded_zip noExtractFail noCopyFail exampleArchive).result.map
      (fun st => lookupA st.stplugin "a.lua")) = some (some "A") ∧
    ((process_downloaded_zip noExtractFail noCopyFail exampleArchive).result.map
      (fun st => lookupA st.statsexport "c.bin")) = some (some "C") := by
  refine ⟨by decide, by decide, by decide, by decide, by decide, by decide⟩

/-! ### Claim C6 -/

/-- A copy oracle where copying `a.lua` fails. -/
def copyFailALua : String → String → Bool := fun p _ => p == "a.lua"

/-- C6 counterexample: when a routing copy fails partway, the function
returns early through `?` and `fs::remove_dir_all(&temp_dir)` is never
reached — the scratch directory is left behind, contrary to the claim that
it is deleted regardless of success or failure. -/
theorem scratch_cleanup_counterexample :
    (process_downloaded_zip noExtractFail copyFailALua
      [⟨"a.lua", "A"⟩]).result = none ∧
    (process_downloaded_zip noExtractFail copyFailALua
      [⟨"a.lua", "A"⟩]).scratchRemoved = false :=
  ⟨by decide, by decide⟩

/-- C6 amended: the scratch directory is removed exactly when extraction and
routing both succeed; on a failure partway the function returns early with
the error and the scratch directory is not deleted. -/
theorem scratch_removed_iff_success (extractFail : String → Bool)
    (copyFail : String → String → Bool) (entries : List ZipEntry) :
    (process_downloaded_zip extractFail copyFail entries).scratchRemoved = true ↔
    (process_downloaded_zip extractFail copyFail entries).result.isSome = true := by
  unfold process_downloaded_zip
  cases hx : extractLoop extractFail [] entries with
  | none => simp
  | some scratch =>
    cases hr : routeFiles copyFail initState scratch with
    | none => simp [hr]
    | some st => simp [hr]

/-! ### Claim C10 -/

/-- C10: dispersal routing discards the archive's internal directory
structure — every copy is stored under the matching destination root using
only the file's base name.  Consequently, whenever a routed file is the last
visited file with a given base name, its copy is what ends up at the
destination, silently replacing any copy made earlier in the walk for a file
with the same base name (from any other subdirectory). -/
theorem dispersal_basename_overwrite (st : DispersalState)
    (xs ys : List (String × String)) (p c : String)
    (hys : ∀ q ∈ ys, baseName q.1 ≠ baseName p) :
    (extOf (baseName p) = some "lua" →
      ∀ st1, routeFiles noCopyFail st (xs ++ (p, c) :: ys) = some st1 →
        lookupA st1.stplugin (baseName p) = some c) ∧
    (extOf (baseName p) = some "bin" →
      ∀ st1, routeFiles noCopyFail st (xs ++ (p, c) :: ys) = some st1 →
        lookupA st1.statsexport (baseName p) = some c) ∧
    (isManifestName (baseName p) = true →
      ∀ st1, routeFiles noCopyFail st (xs ++ (p, c) :: ys) = some st1 →
        lookupA st1.depotcache (baseName p) = some c) := by
  have decomp : ∀ st1, routeFiles noCopyFail st (xs ++ (p, c) :: ys) = some st1 →
      ∃ stx stp, routeFiles noCopyFail st xs = some stx ∧
        routeFile noCopyFail stx p c = some stp ∧
        routeFiles noCopyFail stp ys = some st1 := by
    intro st1 h
    rw [routeFiles_append] at h
    cases hxs : routeFiles noCopyFail st xs with
    | none => rw [hxs] at h; exact absurd h (by simp)
    | some stx =>
      rw [hxs] at h
      have h1 : routeFiles noCopyFail stx ((p, c) :: ys) = some st1 := h
      simp only [routeFiles] at h1
      cases hp : routeFile noCopyFail stx p c with
      | none => rw [hp] at h1; exact absurd h1 (by simp)
      | some stp =>
        rw [hp] at h1
        exact ⟨stx, stp, rfl, hp, h1⟩
  refine ⟨?_, ?_, ?_⟩
  · intro hext st1 h
    obtain ⟨stx, stp, _, hp, hys1⟩ := decomp st1 h
    have hl : lookupA stp.stplugin (baseName p) = some c := by
      rw [routeFile_stplugin_lua stx p c hext stp hp, lookupA_upsertA_self]
    rw [(routeFiles_lookup_preserve ys (baseName p) hys stp st1 hys1).1, hl]
  · intro hext st1 h
    obtain ⟨stx, stp, _, hp, hys1⟩ := decomp st1 h
    have hl : lookupA stp.statsexport (baseName p) = some c := by
      rw [routeFile_statsexport_bin stx p c hext stp hp, lookupA_upsertA_self]
    rw [(routeFiles_lookup_preserve ys (baseName p) hys stp st1 hys1).2.1, hl]
  · intro hman st1 h
    obtain ⟨stx, stp, _, hp, hys1⟩ := decomp st1 h
    have hl : lookupA stp.depotcache (baseName p) = some c := by
      rw [routeFile_depotcache_manifest stx p c hman stp hp, lookupA_upsertA_self]
    rw [(routeFiles_lookup_preserve ys (baseName p) hys stp st1 hys1).2.2, hl]

/-- Witness for `dispersal_basename_overwrite`: `sub1/name.lua` and
`sub2/name.lua` live in different subdirectories, share the base name
`name.lua`, and both match the lua rule; the later copy wins. -/
theorem dispersal_basename_overwrite_witness :
    baseName "sub2/name.lua" = "name.lua" ∧
    ∃ st1, routeFiles noCopyFail initState
        [("sub1/name.lua", "C1"), ("sub2/name.lua", "C2")] = some st1 ∧
      lookupA st1.stplugin (baseName "sub2/name.lua") = some "C2" ∧
      st1.luaCount = 2 := by
  refine ⟨by decide, ⟨2, 0, 0, [("name.lua", "C2")], [], []⟩, by decide, ?_, by decide⟩
  exact (dispersal_basename_overwrite initState [("sub1/name.lua", "C1")] []
    "sub2/name.lua" "C2" (by simp)).1 (by decide)
    ⟨2, 0, 0, [("name.lua", "C2")], [], []⟩ (by decide)

/-!
### Part C: text patching of `commands.rs`

`update_game_files` (commands.rs:738-791) rewrites a local lua file using
the regex `setManifestid\\s*\\(\\s*(\\d+)\\s*,\\s*"(\\d+)"\\s*,\\s*0\\s*\\)` with
`Regex::replace_all`, counting per-occurrence updates, recording every
matched depot id as processed, then appending one canonical call per unseen
binding under a marker comment, and writing the file back only when
`updated + appended > 0`.  The regex engine is embedded as an explicit
character-level matcher: `matchCall` recognises exactly the strings the
pattern matches (with `\\s` as ASCII whitespace and `\\d` as `0-9`, the only
classes arising here), `findCall` finds the leftmost match, and `mergeScan`
is `replace_all` with the source's closure.
-/

/-- ASCII whitespace, the `\\s` class as it applies to this file's content. -/
def isWs (c : Char) : Bool :=
  c == ' ' || c == '\t' || c == '\n' || c == '\r' ||
    c == '\x0b' || c == '\x0c'

/-- The `\\d` class restricted to `0-9`. -/
def isDigitCh (c : Char) : Bool := '0' ≤ c && c ≤ '9'

/-- Greedy span: longest prefix satisfying `p`, and the remainder. -/
def spanP (p : Char → Bool) (s : List Char) : List Char × List Char :=
  (s.takeWhile p, s.dropWhile p)

/-- Consume an exact literal from the front, or fail. -/
def dropLit : List Char → List Char → Option (List Char)
  | [], s => some s
  | _ :: _, [] => none
  | l :: ls, c :: cs => if c = l then dropLit ls cs else none

/-- The literal head of the `setManifestid` pattern. -/
def LIT : List Char := "setManifestid".data

/-- A successful match of the `setManifestid` pattern: the whole matched
text (capture 0), the two digit captures, and the remaining input. -/
structure CallMatch where
  whole : List Char
  depot : List Char
  manifest : List Char
  rest : List Char
deriving DecidableEq

/-- The seven `\\s*` gaps and two digit captures of one match. -/
structure CallParts where
  w1 : List Char
  w2 : List Char
  w3 : List Char
  w4 : List Char
  w5 : List Char
  w6 : List Char
  w7 : List Char
  d : List Char
  m : List Char

/-- The text a match with the given parts covers. -/
def renderCall (cp : CallParts) : List Char :=
  LIT ++ cp.w1 ++ ['('] ++ cp.w2 ++ cp.d ++ cp.w3 ++ [','] ++ cp.w4 ++
    ['"'] ++ cp.m ++ ['"'] ++ cp.w5 ++ [','] ++ cp.w6 ++ ['0'] ++
    cp.w7 ++ [')']

/-- Every character of `w` is whitespace. -/
def wsList (w : List Char) : Prop := ∀ c ∈ w, isWs c = true

/-- Every character is a digit. -/
def digitList (dl : List Char) : Prop := ∀ c ∈ dl, isDigitCh c = true

/-- Well-formedness of match parts: gaps are whitespace, captures are
nonempty digit runs. -/
def goodParts (cp : CallParts) : Prop :=
  wsList cp.w1 ∧ wsList cp.w2 ∧ wsList cp.w3 ∧ wsList cp.w4 ∧
    wsList cp.w5 ∧ wsList cp.w6 ∧ wsList cp.w7 ∧
    digitList cp.d ∧ cp.d ≠ [] ∧ digitList cp.m ∧ cp.m ≠ []

/-- Consume one expected character from the front, or fail. -/
def expectCh (a : Char) : List Char → Option (List Char)
  | c :: cs => if c = a then some cs else none
  | [] => none

/-- Matcher for the pattern
`setManifestid\\s*\\(\\s*(\\d+)\\s*,\\s*"(\\d+)"\\s*,\\s*0\\s*\\)` at the start of
the input: the literal, the greedy whitespace gaps, the two greedy digit
captures, and the fixed punctuation, exactly in the regex's order. -/
def matchCall (s : List Char) : Option CallMatch :=
  (dropLit LIT s).bind fun s1 =>
  let w1 := (spanP isWs s1).1
  (expectCh '(' (spanP isWs s1).2).bind fun s3 =>
  let w2 := (spanP isWs s3).1
  let d := (spanP isDigitCh (spanP isWs s3).2).1
  let s5 := (spanP isDigitCh (spanP isWs s3).2).2
  if d.isEmpty then none else
  let w3 := (spanP isWs s5).1
  (expectCh ',' (spanP isWs s5).2).bind fun s7 =>
  let w4 := (spanP isWs s7).1
  (expectCh '"' (spanP isWs s7).2).bind fun s9 =>
  let m := (spanP isDigitCh s9).1
  if m.isEmpty then none else
  (expectCh '"' (spanP isDigitCh s9).2).bind fun s11 =>
  let w5 := (spanP isWs s11).1
  (expectCh ',' (spanP isWs s11).2).bind fun s13 =>
  let w6 := (spanP isWs s13).1
  (expectCh '0' (spanP isWs s13).2).bind fun s15 =>
  let w7 := (spanP isWs s15).1
  (expectCh ')' (spanP isWs s15).2).map fun s17 =>
  ⟨renderCall ⟨w1, w2, w3, w4, w5, w6, w7, d, m⟩, d, m, s17⟩

/-- The canonical replacement/append text
`format!(r#"setManifestid({}, "{}", 0)"#, depot, manifest)`. -/
def canonCall (d m : List Char) : List Char :=
  "setManifestid(".data ++ d ++ ", \"".data ++ m ++ "\", 0)".data

/-- The parts of a canonical call. -/
def canonParts (d m : List Char) : CallParts :=
  ⟨[], [], [], [' '], [], [' '], [], d, m⟩

/-! ### Part C base lemmas -/

theorem expectCh_eq_some (a : Char) (s r : List Char) :
    expectCh a s = some r ↔ s = a :: r := by
  cases s with
  | nil => simp [expectCh]
  | cons c cs =>
    by_cases h : c = a
    · subst h; simp [expectCh]
    · simp [expectCh, h, Ne.symm h]

theorem expectCh_cons (a : Char) (r : List Char) :
    expectCh a (a :: r) = some r := by
  simp [expectCh]

theorem dropLit_some (l : List Char) :
    ∀ s r, dropLit l s = some r → s = l ++ r := by
  induction l with
  | nil =>
    intro s r h
    simp only [dropLit, Option.some_inj] at h
    rw [h, List.nil_append]
  | cons c cs ih =>
    intro s r h
    cases s with
    | nil => simp [dropLit] at h
    | cons x xs =>
      by_cases hx : x = c
      · subst hx
        simp only [dropLit, if_pos rfl] at h
        rw [List.cons_append, ih xs r h]
      · simp [dropLit, hx] at h

theorem dropLit_append (l r : List Char) : dropLit l (l ++ r) = some r := by
  induction l with
  | nil => rfl
  | cons c cs ih => simp [dropLit, ih]

theorem spanP_append (p : Char → Bool) (x : List Char) :
    (spanP p x).1 ++ (spanP p x).2 = x :=
  List.takeWhile_append_dropWhile p x

theorem spanP_fst (p : Char → Bool) (x : List Char) :
    ∀ c ∈ (spanP p x).1, p c = true :=
  fun _ hc => List.mem_takeWhile_imp hc

theorem spanP_snd_head (p : Char → Bool) (x : List Char) :
    ∀ c, (spanP p x).2.head? = some c → p c = false := by
  induction x with
  | nil => intro c h; simp [spanP] at h
  | cons a as ih =>
    intro c h
    by_cases ha : p a
    · exact ih c (by simpa [spanP, List.dropWhile, ha] using h)
    · simp only [spanP, List.dropWhile, ha, Bool.false_eq_true, if_false,
        List.head?, Option.some_inj] at h
      rw [← h]
      simpa using ha

theorem spanP_eq (p : Char → Bool) (w r : List Char)
    (hw : ∀ c ∈ w, p c = true)
    (hr : ∀ c, r.head? = some c → p c = false) :
    spanP p (w ++ r) = (w, r) := by
  induction w with
  | nil =>
    cases r with
    | nil => rfl
    | cons a as =>
      have ha := hr a rfl
      simp [spanP, List.takeWhile, List.dropWhile, ha]
  | cons x xs ih =>
    have hx := hw x (List.mem_cons_self x xs)
    have hih := ih (fun c hc => hw c (List.mem_cons_of_mem _ hc))
    simp only [spanP, Prod.mk.injEq] at hih
    simp only [List.cons_append, spanP, List.takeWhile, List.dropWhile, hx,
      Prod.mk.injEq, List.append_eq]
    exact ⟨by rw [hih.1], hih.2⟩

/-- No character satisfying `p` can start this remainder. -/
def notHead (p : Char → Bool) (r : List Char) : Prop :=
  ∀ c, r.head? = some c → p c = false

theorem notHead_append (p : Char → Bool) (w : List Char)
    (hw : ∀ c ∈ w, p c = false) (a : Char) (ha : p a = false)
    (z : List Char) : notHead p (w ++ a :: z) := by
  cases w with
  | nil =>
    intro c hc
    simp only [List.nil_append, List.head?, Option.some_inj] at hc
    rw [← hc]; exact ha
  | cons x xs =>
    intro c hc
    simp only [List.cons_append, List.head?, Option.some_inj] at hc
    rw [← hc]; exact hw x (List.mem_cons_self x xs)

theorem notHead_cons (p : Char → Bool) (a : Char) (ha : p a = false)
    (z : List Char) : notHead p (a :: z) :=
  notHead_append p [] (by simp) a ha z

theorem ws_not_digit {c : Char} (h : isWs c = true) : isDigitCh c = false := by
  unfold isWs at h
  simp only [Bool.or_eq_true, beq_iff_eq] at h
  rcases h with ((((h | h) | h) | h) | h) | h <;> subst h <;> decide

theorem digit_not_ws {c : Char} (h : isDigitCh c = true) : isWs c = false := by
  by_cases hw : isWs c
  · rw [ws_not_digit hw] at h
    exact absurd h (by simp)
  · simpa using hw

theorem renderCall_flat (cp : CallParts) (r : List Char) :
    renderCall cp ++ r =
      LIT ++ (cp.w1 ++ '(' :: (cp.w2 ++ (cp.d ++ (cp.w3 ++ ',' :: (cp.w4 ++
        '"' :: (cp.m ++ '"' :: (cp.w5 ++ ',' :: (cp.w6 ++
          '0' :: (cp.w7 ++ ')' :: r))))))))) := by
  simp [renderCall, List.append_assoc]

/-- Re-parsing: a well-formed rendered match parses back to itself in front
of any remainder. -/
theorem matchCall_render (cp : CallParts) (hg : goodParts cp) (r : List Char) :
    matchCall (renderCall cp ++ r) = some ⟨renderCall cp, cp.d, cp.m, r⟩ := by
  obtain ⟨h1, h2, h3, h4, h5, h6, h7, hd, hdne, hm, hmne⟩ := hg
  obtain ⟨dc, dt, hdeq⟩ : ∃ a b, cp.d = a :: b := by
    cases hc : cp.d with
    | nil => exact absurd hc hdne
    | cons a b => exact ⟨a, b, rfl⟩
  have hde : cp.d.isEmpty = false := by rw [hdeq]; rfl
  have hme : cp.m.isEmpty = false := by
    cases hc : cp.m with
    | nil => exact absurd hc hmne
    | cons a b => rfl
  have e1 : spanP isWs (cp.w1 ++ '(' :: (cp.w2 ++ (cp.d ++ (cp.w3 ++
      ',' :: (cp.w4 ++ '"' :: (cp.m ++ '"' :: (cp.w5 ++ ',' :: (cp.w6 ++
        '0' :: (cp.w7 ++ ')' :: r))))))))) =
      (cp.w1, '(' :: (cp.w2 ++ (cp.d ++ (cp.w3 ++ ',' :: (cp.w4 ++
        '"' :: (cp.m ++ '"' :: (cp.w5 ++ ',' :: (cp.w6 ++
          '0' :: (cp.w7 ++ ')' :: r)))))))))  :=
    spanP_eq _ _ _ h1 (notHead_cons _ _ (by decide) _)
  have e2 : spanP isWs (cp.w2 ++ (cp.d ++ (cp.w3 ++ ',' :: (cp.w4 ++
      '"' :: (cp.m ++ '"' :: (cp.w5 ++ ',' :: (cp.w6 ++
        '0' :: (cp.w7 ++ ')' :: r)))))))) =
      (cp.w2, cp.d ++ (cp.w3 ++ ',' :: (cp.w4 ++ '"' :: (cp.m ++
        '"' :: (cp.w5 ++ ',' :: (cp.w6 ++ '0' :: (cp.w7 ++ ')' :: r))))))) := by
    refine spanP_eq _ _ _ h2 ?_
    rw [hdeq]
    exact notHead_cons _ _
      (digit_not_ws (hd dc (by rw [hdeq]; exact List.mem_cons_self _ _))) _
  have e3 : spanP isDigitCh (cp.d ++ (cp.w3 ++ ',' :: (cp.w4 ++
      '"' :: (cp.m ++ '"' :: (cp.w5 ++ ',' :: (cp.w6 ++
        '0' :: (cp.w7 ++ ')' :: r))))))) =
      (cp.d, cp.w3 ++ ',' :: (cp.w4 ++ '"' :: (cp.m ++ '"' :: (cp.w5 ++
        ',' :: (cp.w6 ++ '0' :: (cp.w7 ++ ')' :: r)))))) :=
    spanP_eq _ _ _ hd
      (notHead_append _ _ (fun c hc => ws_not_digit (h3 c hc)) _ (by decide) _)
  have e4 : spanP isWs (cp.w3 ++ ',' :: (cp.w4 ++ '"' :: (cp.m ++
      '"' :: (cp.w5 ++ ',' :: (cp.w6 ++ '0' :: (cp.w7 ++ ')' :: r)))))) =
      (cp.w3, ',' :: (cp.w4 ++ '"' :: (cp.m ++ '"' :: (cp.w5 ++
        ',' :: (cp.w6 ++ '0' :: (cp.w7 ++ ')' :: r)))))) :=
    spanP_eq _ _ _ h3 (notHead_cons _ _ (by decide) _)
  have e5 : spanP isWs (cp.w4 ++ '"' :: (cp.m ++ '"' :: (cp.w5 ++
      ',' :: (cp.w6 ++ '0' :: (cp.w7 ++ ')' :: r))))) =
      (cp.w4, '"' :: (cp.m ++ '"' :: (cp.w5 ++ ',' :: (cp.w6 ++
        '0' :: (cp.w7 ++ ')' :: r))))) :=
    spanP_eq _ _ _ h4 (notHead_cons _ _ (by decide) _)
  have e6 : spanP isDigitCh (cp.m ++ '"' :: (cp.w5 ++ ',' :: (cp.w6 ++
      '0' :: (cp.w7 ++ ')' :: r)))) =
      (cp.m, '"' :: (cp.w5 ++ ',' :: (cp.w6 ++ '0' :: (cp.w7 ++ ')' :: r)))) :=
    spanP_eq _ _ _ hm (notHead_cons _ _ (by decide) _)
  have e7 : spanP isWs (cp.w5 ++ ',' :: (cp.w6 ++ '0' :: (cp.w7 ++
      ')' :: r))) =
      (cp.w5, ',' :: (cp.w6 ++ '0' :: (cp.w7 ++ ')' :: r))) :=
    spanP_eq _ _ _ h5 (notHead_cons _ _ (by decide) _)
  have e8 : spanP isWs (cp.w6 ++ '0' :: (cp.w7 ++ ')' :: r)) =
      (cp.w6, '0' :: (cp.w7 ++ ')' :: r)) :=
    spanP_eq _ _ _ h6 (notHead_cons _ _ (by decide) _)
  have e9 : spanP isWs (cp.w7 ++ ')' :: r) = (cp.w7, ')' :: r) :=
    spanP_eq _ _ _ h7 (notHead_cons _ _ (by decide) _)
  rw [renderCall_flat]
  simp only [matchCall, dropLit_append, Option.some_bind', e1, expectCh_cons,
    e2, e3, hde, Bool.false_eq_true, if_false, e4, e5, e6, hme, e7, e8, e9,
    Option.map_some]
  rfl

/-- Inversion: a successful match decomposes the input into a well-formed
rendered match followed by the remainder. -/
theorem matchCall_some_inv (s : List Char) (cm : CallMatch)
    (h : matchCall s = some cm) :
    ∃ cp, goodParts cp ∧ cm.whole = renderCall cp ∧ cm.depot = cp.d ∧
      cm.manifest = cp.m ∧ s = cm.whole ++ cm.rest := by
  unfold matchCall at h
  simp only [Option.bind_eq_some'] at h
  obtain ⟨s1, hdl, s3, hex1, h⟩ := h
  by_cases hde : (spanP isDigitCh (spanP isWs s3).2).1.isEmpty = true
  · rw [if_pos hde] at h
    exact absurd h (by simp)
  · rw [if_neg hde] at h
    simp only [Option.bind_eq_some', Option.map_eq_some'] at h
    obtain ⟨s7, hex2, s9, hex3, h⟩ := h
    by_cases hme : (spanP isDigitCh s9).1.isEmpty = true
    · rw [if_pos hme] at h
      exact absurd h (by simp)
    · rw [if_neg hme] at h
      simp only [Option.bind_eq_some', Option.map_eq_some'] at h
      obtain ⟨s11, hex4, s13, hex5, s15, hex6, s17, hex7, hcm⟩ := h
      subst hcm
      have hdne2 : (spanP isDigitCh (spanP isWs s3).2).1 ≠ [] := by
        intro hnil; rw [hnil] at hde; exact hde rfl
      have hmne2 : (spanP isDigitCh s9).1 ≠ [] := by
        intro hnil; rw [hnil] at hme; exact hme rfl
      have r15 : s15 = (spanP isWs s15).1 ++ ')' :: s17 := by
        conv_lhs => rw [← spanP_append isWs s15]
        rw [(expectCh_eq_some _ _ _).mp hex7]
      have r13 : s13 = (spanP isWs s13).1 ++ '0' :: s15 := by
        conv_lhs => rw [← spanP_append isWs s13]
        rw [(expectCh_eq_some _ _ _).mp hex6]
      have r11 : s11 = (spanP isWs s11).1 ++ ',' :: s13 := by
        conv_lhs => rw [← spanP_append isWs s11]
        rw [(expectCh_eq_some _ _ _).mp hex5]
      have r9 : s9 = (spanP isDigitCh s9).1 ++ '"' :: s11 := by
        conv_lhs => rw [← spanP_append isDigitCh s9]
        rw [(expectCh_eq_some _ _ _).mp hex4]
      have r7 : s7 = (spanP isWs s7).1 ++ '"' :: s9 := by
        conv_lhs => rw [← spanP_append isWs s7]
        rw [(expectCh_eq_some _ _ _).mp hex3]
      have r5 : (spanP isDigitCh (spanP isWs s3).2).2 =
          (spanP isWs (spanP isDigitCh (spanP isWs s3).2).2).1 ++
            ',' :: s7 := by
        conv_lhs =>
          rw [← spanP_append isWs (spanP isDigitCh (spanP isWs s3).2).2]
        rw [(expectCh_eq_some _ _ _).mp hex2]
      have r3 : s3 = (spanP isWs s3).1 ++
          ((spanP isDigitCh (spanP isWs s3).2).1 ++
            (spanP isDigitCh (spanP isWs s3).2).2) := by
        conv_lhs => rw [← spanP_append isWs s3]
        rw [spanP_append isDigitCh (spanP isWs s3).2]
      have r1 : s1 = (spanP isWs s1).1 ++ '(' :: s3 := by
        conv_lhs => rw [← spanP_append isWs s1]
        rw [(expectCh_eq_some _ _ _).mp hex1]
      have hs : s = renderCall ⟨(spanP isWs s1).1, (spanP isWs s3).1,
          (spanP isWs (spanP isDigitCh (spanP isWs s3).2).2).1,
          (spanP isWs s7).1, (spanP isWs s11).1, (spanP isWs s13).1,
          (spanP isWs s15).1, (spanP isDigitCh (spanP isWs s3).2).1,
          (spanP isDigitCh s9).1⟩ ++ s17 := by
        rw [renderCall_flat]
        conv_lhs =>
          rw [dropLit_some LIT s s1 hdl, r1, r3, r5, r7, r9, r11, r13, r15]
      exact ⟨⟨(spanP isWs s1).1, (spanP isWs s3).1,
        (spanP isWs (spanP isDigitCh (spanP isWs s3).2).2).1,
        (spanP isWs s7).1, (spanP isWs s11).1, (spanP isWs s13).1,
        (spanP isWs s15).1, (spanP isDigitCh (spanP isWs s3).2).1,
        (spanP isDigitCh s9).1⟩,
        ⟨spanP_fst _ _, spanP_fst _ _, spanP_fst _ _, spanP_fst _ _,
         spanP_fst _ _, spanP_fst _ _, spanP_fst _ _, spanP_fst _ _,
         hdne2, spanP_fst _ _, hmne2⟩,
        rfl, rfl, rfl, hs⟩

/-- The only characters the pattern can consume after its leading literal. -/
def allowCh (c : Char) : Bool :=
  isWs c || isDigitCh c || c == '(' || c == ',' || c == '"' || c == ')'

/-- The rendered match without its leading literal. -/
def afterLit (cp : CallParts) : List Char :=
  cp.w1 ++ ['('] ++ cp.w2 ++ cp.d ++ cp.w3 ++ [','] ++ cp.w4 ++ ['"'] ++
    cp.m ++ ['"'] ++ cp.w5 ++ [','] ++ cp.w6 ++ ['0'] ++ cp.w7 ++ [')']

theorem renderCall_decomp (cp : CallParts) :
    renderCall cp = LIT ++ afterLit cp := by
  simp [renderCall, afterLit, List.append_assoc]

theorem afterLit_allow (cp : CallParts) (hg : goodParts cp) :
    ∀ c ∈ afterLit cp, allowCh c = true := by
  obtain ⟨h1, h2, h3, h4, h5, h6, h7, hd, _, hm, _⟩ := hg
  intro c hc
  simp only [afterLit, List.append_assoc, List.mem_append,
    List.mem_singleton] at hc
  rcases hc with h | h | h | h | h | h | h | h | h | h | h | h | h | h | h | h
  · simp [allowCh, h1 c h]
  · simp [allowCh, h]
  · simp [allowCh, h2 c h]
  · simp [allowCh, hd c h]
  · simp [allowCh, h3 c h]
  · simp [allowCh, h]
  · simp [allowCh, h4 c h]
  · simp [allowCh, h]
  · simp [allowCh, hm c h]
  · simp [allowCh, h]
  · simp [allowCh, h5 c h]
  · simp [allowCh, h]
  · simp [allowCh, h6 c h]
  · subst h; decide
  · simp [allowCh, h7 c h]
  · simp [allowCh, h]

theorem afterLit_getLast (cp : CallParts) :
    (afterLit cp).getLast? = some ')' :=
  List.getLast?_concat _

theorem afterLit_ne_nil (cp : CallParts) : afterLit cp ≠ [] := by
  intro h
  have := afterLit_getLast cp
  rw [h] at this
  simp at this

/-- The letter-free view of a match's start: a successful match begins with
the literal. -/
theorem matchCall_starts_lit (s : List Char) (cm : CallMatch)
    (h : matchCall s = some cm) : ∃ a, s = LIT ++ a := by
  obtain ⟨cp, _, hwhole, _, _, hsplit⟩ := matchCall_some_inv s cm h
  exact ⟨afterLit cp ++ cm.rest, by
    rw [hsplit, hwhole, renderCall_decomp, List.append_assoc]⟩

/-- `setManifestid` has no proper border: no nonempty proper suffix of the
literal is also a prefix of it. -/
theorem lit_no_border :
    ∀ k, k < 13 → 0 < k → LIT.drop k ≠ LIT.take (13 - k) := by decide

/-- Master exchange lemma: whether a failed match attempt that starts
strictly before a literal-headed tail stays failed does not depend on which
literal-headed tail follows. -/
theorem matchCall_none_congr (x t t' : List Char) (hx : x ≠ [])
    (ht' : ∃ a, t' = LIT ++ a)
    (h : matchCall (x ++ t) = none) : matchCall (x ++ t') = none := by
  cases hcm : matchCall (x ++ t') with
  | none => rfl
  | some cm =>
    exfalso
    obtain ⟨cp, hg, hwhole, _, _, hsplit⟩ := matchCall_some_inv _ _ hcm
    by_cases hlen : cm.whole.length ≤ x.length
    · have hxw : cm.whole = x.take cm.whole.length := by
        have := congrArg (List.take cm.whole.length) hsplit
        rw [List.take_append_of_le_length hlen] at this
        rw [List.take_append_of_le_length (Nat.le_refl _), List.take_length]
          at this
        exact this.symm
      have hx2 : x = cm.whole ++ x.drop cm.whole.length := by
        conv_lhs => rw [← List.take_append_drop cm.whole.length x]
        rw [← hxw]
      rw [hx2, List.append_assoc, hwhole] at h
      rw [matchCall_render cp hg _] at h
      exact absurd h (by simp)
    · push_neg at hlen
      have hxw : x = cm.whole.take x.length := by
        have := congrArg (List.take x.length) hsplit
        rw [List.take_append_of_le_length (Nat.le_refl _), List.take_length]
          at this
        rw [List.take_append_of_le_length (Nat.le_of_lt hlen)] at this
        exact this
      have ht'u : t' = cm.whole.drop x.length ++ cm.rest := by
        have := congrArg (List.drop x.length) hsplit
        rw [List.drop_append_of_le_length (Nat.le_refl _), List.drop_length,
          List.nil_append] at this
        rw [List.drop_append_of_le_length (Nat.le_of_lt hlen)] at this
        exact this
      obtain ⟨a', ht'⟩ := ht'
      have hlitlen : LIT.length = 13 := by decide
      by_cases hsmall : x.length < 13
      · -- the literal would need a proper border
        have hxle : x.length ≤ LIT.length := by omega
        have hu : cm.whole.drop x.length =
            LIT.drop x.length ++ afterLit cp := by
          rw [hwhole, renderCall_decomp, List.drop_append_of_le_length hxle]
        have hlen13 : (LIT.drop x.length).length = 13 - x.length := by
          rw [List.length_drop, hlitlen]
        have hbig : LIT.drop x.length ++ (afterLit cp ++ cm.rest) =
            LIT ++ a' := by
          rw [← List.append_assoc, ← hu, ← ht'u, ht']
        have htake : LIT.drop x.length = LIT.take (13 - x.length) := by
          have h1 := congrArg (List.take (13 - x.length)) hbig
          rw [List.take_left' hlen13] at h1
          rw [List.take_append_of_le_length (by rw [hlitlen]; omega)] at h1
          exact h1
        have hpos : 0 < x.length := List.length_pos.mpr hx
        exact lit_no_border x.length hsmall hpos htake
      · push_neg at hsmall
        -- the first tail character must be allowed after the literal
        have hu : cm.whole.drop x.length =
            (afterLit cp).drop (x.length - 13) := by
          rw [hwhole, renderCall_decomp]
          have hsplit13 : x.length = LIT.length + (x.length - 13) := by omega
          conv_lhs => rw [hsplit13]
          rw [List.drop_append]
        have hune : cm.whole.drop x.length ≠ [] := by
          intro he
          have hlc := congrArg List.length he
          rw [List.length_drop] at hlc
          simp at hlc
          omega
        obtain ⟨c0, u', huc⟩ : ∃ c0 u', cm.whole.drop x.length = c0 :: u' := by
          cases hc : cm.whole.drop x.length with
          | nil => exact absurd hc hune
          | cons a b => exact ⟨a, b, rfl⟩
        have hc0s : c0 = 's' := by
          have h2 := ht'u
          rw [huc, ht'] at h2
          have hlitcons : LIT = 's' :: "etManifestid".data := rfl
          rw [hlitcons] at h2
          simp only [List.cons_append, List.cons.injEq] at h2
          exact h2.1.symm
        have hmem : c0 ∈ afterLit cp := by
          have hmem0 : c0 ∈ (afterLit cp).drop (x.length - 13) := by
            rw [← hu, huc]
            exact List.mem_cons_self _ _
          exact List.drop_subset _ _ hmem0
        have hallow := afterLit_allow cp hg c0 hmem
        rw [hc0s] at hallow
        exact absurd hallow (by decide)

/-- Master exchange lemma for the appended comment block: appending text
that starts with a newline and a dash cannot create a match that starts
inside text that had no match on its own. -/
theorem matchCall_none_block (x t' : List Char)
    (h : matchCall x = none) (ht' : ∃ a, t' = '\n' :: '-' :: a) :
    matchCall (x ++ t') = none := by
  cases hcm : matchCall (x ++ t') with
  | none => rfl
  | some cm =>
    exfalso
    obtain ⟨cp, hg, hwhole, _, _, hsplit⟩ := matchCall_some_inv _ _ hcm
    obtain ⟨a', ht'⟩ := ht'
    have hlitlen : LIT.length = 13 := by decide
    by_cases hlen : cm.whole.length ≤ x.length
    · have hxw : cm.whole = x.take cm.whole.length := by
        have h1 := congrArg (List.take cm.whole.length) hsplit
        rw [List.take_append_of_le_length hlen] at h1
        rw [List.take_append_of_le_length (Nat.le_refl _), List.take_length]
          at h1
        exact h1.symm
      have hx2 : x = cm.whole ++ x.drop cm.whole.length := by
        conv_lhs => rw [← List.take_append_drop cm.whole.length x]
        rw [← hxw]
      rw [hx2, hwhole, matchCall_render cp hg _] at h
      exact absurd h (by simp)
    · push_neg at hlen
      have ht'u : t' = cm.whole.drop x.length ++ cm.rest := by
        have h1 := congrArg (List.drop x.length) hsplit
        rw [List.drop_append_of_le_length (Nat.le_refl _), List.drop_length,
          List.nil_append] at h1
        rw [List.drop_append_of_le_length (Nat.le_of_lt hlen)] at h1
        exact h1
      have hune : cm.whole.drop x.length ≠ [] := by
        intro he
        have hlc := congrArg List.length he
        rw [List.length_drop] at hlc
        simp at hlc
        omega
      obtain ⟨c0, u', huc⟩ : ∃ c0 u', cm.whole.drop x.length = c0 :: u' := by
        cases hc : cm.whole.drop x.length with
        | nil => exact absurd hc hune
        | cons a b => exact ⟨a, b, rfl⟩
      have hc0 : c0 = '\n' := by
        have h2 := ht'u
        rw [huc, ht'] at h2
        simp only [List.cons_append, List.cons.injEq] at h2
        exact h2.1.symm
      by_cases hsmall : x.length < 13
      · -- a newline would be a character of the literal
        have hxle : x.length ≤ LIT.length := by omega
        have hu : cm.whole.drop x.length =
            LIT.drop x.length ++ afterLit cp := by
          rw [hwhole, renderCall_decomp, List.drop_append_of_le_length hxle]
        have hlne : LIT.drop x.length ≠ [] := by
          intro he
          have hlc := congrArg List.length he
          rw [List.length_drop, hlitlen] at hlc
          simp at hlc
          omega
        obtain ⟨l0, lt', hld⟩ : ∃ l0 lt', LIT.drop x.length = l0 :: lt' := by
          cases hc : LIT.drop x.length with
          | nil => exact absurd hc hlne
          | cons a b => exact ⟨a, b, rfl⟩
        have hl0 : l0 = c0 := by
          rw [hu, hld] at huc
          simp only [List.cons_append, List.cons.injEq] at huc
          exact huc.1
        have hmem : l0 ∈ LIT := by
          have hmem0 : l0 ∈ LIT.drop x.length := by
            rw [hld]; exact List.mem_cons_self _ _
          exact List.drop_subset _ _ hmem0
        rw [hl0, hc0] at hmem
        exact absurd hmem (by decide)
      · push_neg at hsmall
        have hu : cm.whole.drop x.length =
            (afterLit cp).drop (x.length - 13) := by
          rw [hwhole, renderCall_decomp]
          have hsplit13 : x.length = LIT.length + (x.length - 13) := by omega
          conv_lhs => rw [hsplit13]
          rw [List.drop_append]
        cases hu' : u' with
        | nil =>
          -- the whole match would end in a newline instead of ')'
          have hlast : cm.whole.getLast? = some ')' := by
            rw [hwhole, renderCall_decomp, List.getLast?_append,
              afterLit_getLast]
            rfl
          have hlast2 : cm.whole.getLast? = some c0 := by
            conv_lhs => rw [← List.take_append_drop x.length cm.whole]
            rw [huc, hu', List.getLast?_append]
            rfl
          rw [hlast] at hlast2
          rw [hc0] at hlast2
          simp at hlast2
        | cons c1 u'' =>
          have hc1 : c1 = '-' := by
            have h2 := ht'u
            rw [huc, hu', ht'] at h2
            simp only [List.cons_append, List.cons.injEq] at h2
            exact h2.2.1.symm
          have hmem : c1 ∈ afterLit cp := by
            have hmem0 : c1 ∈ (afterLit cp).drop (x.length - 13) := by
              rw [← hu, huc, hu']
              exact List.mem_cons_of_mem _ (List.mem_cons_self _ _)
            exact List.drop_subset _ _ hmem0
          have hallow := afterLit_allow cp hg c1 hmem
          rw [hc1] at hallow
          exact absurd hallow (by decide)

/-- Leftmost match: the match-free prefix and the first match, if any.
This is the scan order of `Regex::replace_all`. -/
def findCall : List Char → Option (List Char × CallMatch)
  | [] => none
  | c :: rest =>
    match matchCall (c :: rest) with
    | some cm => some ([], cm)
    | none =>
      match findCall rest with
      | some (pre, cm) => some (c :: pre, cm)
      | none => none

theorem matchCall_nil : matchCall [] = none := rfl

theorem findCall_decomp (s : List Char) (pre : List Char) (cm : CallMatch)
    (h : findCall s = some (pre, cm)) :
    s = pre ++ (cm.whole ++ cm.rest) ∧
    matchCall (cm.whole ++ cm.rest) = some cm ∧
    ∀ n, n < pre.length →
      matchCall (pre.drop n ++ (cm.whole ++ cm.rest)) = none := by
  induction s generalizing pre with
  | nil => simp [findCall] at h
  | cons c rest ih =>
    unfold findCall at h
    cases hm : matchCall (c :: rest) with
    | some cm0 =>
      rw [hm] at h
      simp only [Option.some_inj, Prod.mk.injEq] at h
      obtain ⟨hpre, hcm⟩ := h
      subst hpre
      subst hcm
      obtain ⟨cp, hg, hwhole, _, _, hsplit⟩ := matchCall_some_inv _ _ hm
      rw [← hsplit]
      exact ⟨by simp, hm, by simp⟩
    | none =>
      rw [hm] at h
      cases hf : findCall rest with
      | none => rw [hf] at h; exact absurd h (by simp)
      | some pc =>
        obtain ⟨pre', cm'⟩ := pc
        rw [hf] at h
        simp only [Option.some_inj, Prod.mk.injEq] at h
        obtain ⟨hpre, hcm⟩ := h
        subst hcm
        obtain ⟨hdec, hmc, hsuf⟩ := ih pre' hf
        subst hpre
        refine ⟨by rw [List.cons_append, ← hdec], hmc, ?_⟩
        intro n hn
        cases n with
        | zero =>
          simp only [List.drop_zero, List.cons_append, ← hdec]
          exact hm
        | succ k =>
          simp only [List.length_cons] at hn
          exact hsuf k (Nat.lt_of_succ_lt_succ hn)

theorem findCall_none (s : List Char) (h : findCall s = none) :
    ∀ n, matchCall (s.drop n) = none := by
  induction s with
  | nil => intro n; rw [List.drop_nil]; exact matchCall_nil
  | cons c rest ih =>
    unfold findCall at h
    cases hm : matchCall (c :: rest) with
    | some cm0 => rw [hm] at h; exact absurd h (by simp)
    | none =>
      rw [hm] at h
      cases hf : findCall rest with
      | some pc => rw [hf] at h; exact absurd h (by simp)
      | none =>
        intro n
        cases n with
        | zero => exact hm
        | succ k => exact ih hf k

theorem findCall_skip (p tail : List Char)
    (h : ∀ n, n < p.length → matchCall (p.drop n ++ tail) = none) :
    findCall (p ++ tail) =
      (findCall tail).map (fun pc => (p ++ pc.1, pc.2)) := by
  induction p with
  | nil =>
    cases hf : findCall tail with
    | none => simp [hf]
    | some pc => simp [hf]
  | cons c p' ih =>
    have h0 : matchCall (c :: (p' ++ tail)) = none := by
      have := h 0 (by simp)
      simpa using this
    have hrest := ih (fun n hn => by
      have h1 := h (n + 1) (by simpa using Nat.succ_lt_succ hn)
      simpa using h1)
    rw [List.cons_append]
    cases hf : findCall tail with
    | none =>
      rw [hf] at hrest
      simp only [Option.map_none'] at hrest
      conv_lhs => rw [findCall]
      rw [h0, hrest]
      simp [hf]
    | some pc =>
      rw [hf] at hrest
      conv_lhs => rw [findCall]
      rw [h0, hrest]
      simp [hf]

theorem findCall_head (s : List Char) (cm : CallMatch)
    (h : matchCall s = some cm) : findCall s = some ([], cm) := by
  cases s with
  | nil => rw [matchCall_nil] at h; exact absurd h (by simp)
  | cons c rest => unfold findCall; rw [h]

theorem findCall_rest_lt (s : List Char) (pre : List Char) (cm : CallMatch)
    (h : findCall s = some (pre, cm)) : cm.rest.length < s.length := by
  obtain ⟨hdec, hmc, _⟩ := findCall_decomp s pre cm h
  obtain ⟨cp, _, hwhole, _, _, _⟩ := matchCall_some_inv _ _ hmc
  have hw : cm.whole.length = 13 + (afterLit cp).length := by
    rw [hwhole, renderCall_decomp, List.length_append]
    have : LIT.length = 13 := by decide
    rw [this]
  have hafter : 0 < (afterLit cp).length :=
    List.length_pos.mpr (afterLit_ne_nil cp)
  have := congrArg List.length hdec
  simp only [List.length_append] at this
  omega

/-- Lookup in the manifest map (model of `HashMap::get`; the embedding
carries the map as its iteration-ordered entry list). -/
def lookupL : List (List Char × List Char) → List Char → Option (List Char)
  | [], _ => none
  | kv :: rest, k => if kv.1 = k then some kv.2 else lookupL rest k

/-- Fuel-indexed helper for `mergeScan`: the fuel only serves structural
termination and is irrelevant once it exceeds the input length, since each
found match consumes at least one character. -/
def mergeScanF (map : List (List Char × List Char)) :
    Nat → List Char → List Char × Nat × List (List Char)
  | 0, s => (s, 0, [])
  | fuel + 1, s =>
    match findCall s with
    | none => (s, 0, [])
    | some (pre, cm) =>
      let r := mergeScanF map fuel cm.rest
      match lookupL map cm.depot with
      | some newm =>
        if newm ≠ cm.manifest then
          (pre ++ canonCall cm.depot newm ++ r.1, r.2.1 + 1,
            cm.depot :: r.2.2)
        else (pre ++ cm.whole ++ r.1, r.2.1, cm.depot :: r.2.2)
      | none => (pre ++ cm.whole ++ r.1, r.2.1, cm.depot :: r.2.2)

/-- `re_replace.replace_all(&content, closure)` together with the closure's
side effects (commands.rs:745-762): scans for matches left to right; a
matched depot is always recorded as processed; a binding with a different
manifest id is rewritten canonically and counted, matches with the same or
no binding keep their original text (capture 0).  Returns the rewritten
text, the update count, and the processed depot ids in match order. -/
def mergeScan (map : List (List Char × List Char)) (s : List Char) :
    List Char × Nat × List (List Char) :=
  mergeScanF map (s.length + 1) s

theorem mergeScanF_fuel (map : List (List Char × List Char)) :
    ∀ f1 f2 s, s.length < f1 → s.length < f2 →
      mergeScanF map f1 s = mergeScanF map f2 s := by
  intro f1
  induction f1 with
  | zero => intro f2 s h1 _; exact absurd h1 (by omega)
  | succ f1 ih =>
    intro f2 s h1 h2
    cases f2 with
    | zero => exact absurd h2 (by omega)
    | succ f2 =>
      unfold mergeScanF
      cases hf : findCall s with
      | none => rfl
      | some pc =>
        obtain ⟨pre, cm⟩ := pc
        have hlt := findCall_rest_lt s pre cm hf
        have hscan := ih f2 cm.rest (by omega) (by omega)
        simp only [hscan]

/-- The defining one-step equation of `mergeScan`. -/
theorem mergeScan_eq (map : List (List Char × List Char)) (s : List Char) :
    mergeScan map s =
      match findCall s with
      | none => (s, 0, [])
      | some (pre, cm) =>
        let r := mergeScan map cm.rest
        match lookupL map cm.depot with
        | some newm =>
          if newm ≠ cm.manifest then
            (pre ++ canonCall cm.depot newm ++ r.1, r.2.1 + 1,
              cm.depot :: r.2.2)
          else (pre ++ cm.whole ++ r.1, r.2.1, cm.depot :: r.2.2)
        | none => (pre ++ cm.whole ++ r.1, r.2.1, cm.depot :: r.2.2) := by
  unfold mergeScan
  conv_lhs => rw [mergeScanF]
  cases hf : findCall s with
  | none => rfl
  | some pc =>
    obtain ⟨pre, cm⟩ := pc
    have hlt := findCall_rest_lt s pre cm hf
    have hscan := mergeScanF_fuel map s.length (cm.rest.length + 1) cm.rest
      (by omega) (by omega)
    simp only [hscan]

/-- The marker comment block head (commands.rs:774). -/
def APPEND_HDR : List Char := "\n-- Appended by Yeyo Updater --\n".data

/-- `Vec::join("\n")`. -/
def joinNl : List (List Char) → List Char
  | [] => []
  | [x] => x
  | x :: y :: xs => x ++ '\n' :: joinNl (y :: xs)

/-- The `setManifestid` update step of `update_game_files`
(commands.rs:740-777): the `replace_all` pass, then one canonical appended
line per binding whose depot was never matched, under the marker comment.
Returns (new text, updated count, appended count). -/
def mergeManifestIds (map : List (List Char × List Char))
    (content : List Char) : List Char × Nat × Nat :=
  let r := mergeScan map content
  let toAppend := map.filter (fun kv => !(r.2.2.contains kv.1))
  let out :=
    if toAppend.isEmpty then r.1
    else r.1 ++ APPEND_HDR ++
      joinNl (toAppend.map (fun kv => canonCall kv.1 kv.2)) ++ ['\n']
  (out, r.2.1, toAppend.length)

/-- Result of one `update_game_files` run on the lua file: the file content
on disk afterwards, the two counts, and whether `fs::write` ran. -/
structure MergeResult where
  fileContent : List Char
  updated : Nat
  appended : Nat
  wroteBack : Bool
deriving DecidableEq

/-- Steps 3-4 of `update_game_files` (commands.rs:738-791): rewrite the
content and write the file back only when `updated + appended > 0`. -/
def update_game_files_merge (map : List (List Char × List Char))
    (content : List Char) : MergeResult :=
  let r := mergeManifestIds map content
  if 0 < r.2.1 + r.2.2 then ⟨r.1, r.2.1, r.2.2, true⟩
  else ⟨content, r.2.1, r.2.2, false⟩

theorem lookupL_mem (map : List (List Char × List Char))
    (k v : List Char) (h : lookupL map k = some v) : (k, v) ∈ map := by
  induction map with
  | nil => simp [lookupL] at h
  | cons kv rest ih =>
    by_cases hk : kv.1 = k
    · simp only [lookupL, if_pos hk, Option.some_inj] at h
      have : kv = (k, v) := by
        obtain ⟨a, b⟩ := kv
        simp only at hk h
        rw [hk, h]
      rw [← this]
      exact List.mem_cons_self _ _
    · simp only [lookupL, if_neg hk] at h
      exact List.mem_cons_of_mem _ (ih h)

theorem canonCall_eq_render (d m : List Char) :
    canonCall d m = renderCall (canonParts d m) := by
  have hc1 : "setManifestid(".data = LIT ++ ['('] := by decide
  have hc2 : ", \"".data = [',', ' ', '"'] := by decide
  have hc3 : "\", 0)".data = ['"', ',', ' ', '0', ')'] := by decide
  simp [canonCall, renderCall, canonParts, hc1, hc2, hc3, LIT]

theorem canonParts_good (d m : List Char) (hd : digitList d) (hdne : d ≠ [])
    (hm : digitList m) (hmne : m ≠ []) : goodParts (canonParts d m) := by
  refine ⟨?_, ?_, ?_, ?_, ?_, ?_, ?_, hd, hdne, hm, hmne⟩ <;>
    intro c hc <;> simp [canonParts] at hc <;> subst hc <;> decide

/-- Re-parsing a canonical call. -/
theorem matchCall_canon (d m : List Char) (hd : digitList d) (hdne : d ≠ [])
    (hm : digitList m) (hmne : m ≠ []) (r : List Char) :
    matchCall (canonCall d m ++ r) = some ⟨canonCall d m, d, m, r⟩ := by
  rw [canonCall_eq_render]
  exact matchCall_render (canonParts d m) (canonParts_good d m hd hdne hm hmne) r

theorem drop_ne_nil_of_lt {l : List Char} {n : Nat} (h : n < l.length) :
    l.drop n ≠ [] := by
  intro he
  have := List.drop_eq_nil_iff.mp he
  omega

/-- A kept or canonically rewritten match still starts with the literal. -/
theorem whole_starts_lit (cm : CallMatch) (cp : CallParts)
    (hwhole : cm.whole = renderCall cp) (z : List Char) :
    ∃ a, cm.whole ++ z = LIT ++ a :=
  ⟨afterLit cp ++ z, by rw [hwhole, renderCall_decomp, List.append_assoc]⟩

theorem canon_starts_lit (d m z : List Char) :
    ∃ a, canonCall d m ++ z = LIT ++ a :=
  ⟨afterLit (canonParts d m) ++ z, by
    rw [canonCall_eq_render, renderCall_decomp, List.append_assoc]⟩

/-- Central rescan lemma: the output of one `replace_all` pass, optionally
followed by an appended comment block, rescans to itself — no further
updates, the same processed depots (then those of the block), and the same
text. -/
theorem mergeScan_rescan (map : List (List Char × List Char))
    (hdig : ∀ kv ∈ map,
      digitList kv.1 ∧ kv.1 ≠ [] ∧ digitList kv.2 ∧ kv.2 ≠ []) :
    ∀ n s B, s.length ≤ n → (B = [] ∨ ∃ a, B = '\n' :: '-' :: a) →
      mergeScan map ((mergeScan map s).1 ++ B) =
        ((mergeScan map s).1 ++ (mergeScan map B).1,
         (mergeScan map B).2.1,
         (mergeScan map s).2.2 ++ (mergeScan map B).2.2) := by
  intro n
  induction n using Nat.strong_induction_on with
  | _ n ih =>
  intro s B hlen hB
  rcases hfc : findCall s with _ | ⟨pre, cm⟩
  · -- no match in s: the scan output is s itself
    have hms : mergeScan map s = (s, 0, []) := by rw [mergeScan_eq, hfc]
    rw [hms]
    have hnone : ∀ k, k < s.length → matchCall (s.drop k ++ B) = none := by
      intro k hk
      rcases hB with hB | hB
      · rw [hB, List.append_nil]
        exact findCall_none s hfc k
      · exact matchCall_none_block _ _ (findCall_none s hfc k) ⟨_, hB.choose_spec⟩
    have hskip := findCall_skip s B hnone
    rcases hfB : findCall B with _ | ⟨preB, cmB⟩
    · rw [hfB] at hskip
      simp only [Option.map_none'] at hskip
      have h1 : mergeScan map (s ++ B) = (s ++ B, 0, []) := by
        rw [mergeScan_eq, hskip]
      have h2 : mergeScan map B = (B, 0, []) := by rw [mergeScan_eq, hfB]
      rw [h1, h2]
      simp
    · rw [hfB] at hskip
      simp only [Option.map_some'] at hskip
      have h1 := mergeScan_eq map (s ++ B)
      rw [hskip] at h1
      have h2 := mergeScan_eq map B
      rw [hfB] at h2
      rw [h1, h2]
      rcases hlk : lookupL map cmB.depot with _ | newm
      · simp [hlk, List.append_assoc]
      · by_cases hne : newm ≠ cmB.manifest
        · simp [hlk, hne, List.append_assoc]
        · simp [hlk, hne, List.append_assoc]
  · -- a match in s
    have hlt := findCall_rest_lt s pre cm hfc
    obtain ⟨hdec, hmc, hsuf⟩ := findCall_decomp s pre cm hfc
    obtain ⟨cp, hg, hwhole, hdep, hman, _⟩ := matchCall_some_inv _ _ hmc
    have ihr := ih cm.rest.length (by omega) cm.rest B (Nat.le_refl _) hB
    have hpreskip : ∀ X z, (∃ a, X ++ z = LIT ++ a) →
        ∀ k, k < pre.length → matchCall (pre.drop k ++ (X ++ z)) = none := by
      intro X z hlitX k hk
      exact matchCall_none_congr (pre.drop k) (cm.whole ++ cm.rest) (X ++ z)
        (drop_ne_nil_of_lt hk) hlitX (hsuf k hk)
    rcases hlk : lookupL map cm.depot with _ | newm
    · -- no binding for this depot: the original text is kept
      have hms : mergeScan map s =
          (pre ++ cm.whole ++ (mergeScan map cm.rest).1,
           (mergeScan map cm.rest).2.1,
           cm.depot :: (mergeScan map cm.rest).2.2) := by
        rw [mergeScan_eq, hfc]
        simp [hlk]
      have matchX : matchCall (cm.whole ++ ((mergeScan map cm.rest).1 ++ B)) =
          some ⟨cm.whole, cm.depot, cm.manifest,
            (mergeScan map cm.rest).1 ++ B⟩ := by
        rw [hwhole, hdep, hman]
        exact matchCall_render cp hg _
      have hfall : findCall ((pre ++ cm.whole ++ (mergeScan map cm.rest).1) ++ B) =
          some (pre, ⟨cm.whole, cm.depot, cm.manifest,
            (mergeScan map cm.rest).1 ++ B⟩) := by
        have hassoc : (pre ++ cm.whole ++ (mergeScan map cm.rest).1) ++ B =
            pre ++ (cm.whole ++ ((mergeScan map cm.rest).1 ++ B)) := by
          simp [List.append_assoc]
        rw [hassoc, findCall_skip _ _
          (hpreskip _ _ (whole_starts_lit cm cp hwhole _)),
          findCall_head _ _ matchX]
        simp
      have hfin := mergeScan_eq map
        ((pre ++ cm.whole ++ (mergeScan map cm.rest).1) ++ B)
      rw [hfall] at hfin
      rw [hms]
      rw [hfin]
      simp [hlk, ihr, List.append_assoc]
    · by_cases hne : newm ≠ cm.manifest
      · -- different binding: the call is rewritten canonically
        obtain ⟨hdd, hdn, hmd, hmn⟩ := hdig _ (lookupL_mem map _ _ hlk)
        have hms : mergeScan map s =
            (pre ++ canonCall cm.depot newm ++ (mergeScan map cm.rest).1,
             (mergeScan map cm.rest).2.1 + 1,
             cm.depot :: (mergeScan map cm.rest).2.2) := by
          rw [mergeScan_eq, hfc]
          simp [hlk, hne]
        have matchX : matchCall (canonCall cm.depot newm ++
            ((mergeScan map cm.rest).1 ++ B)) =
            some ⟨canonCall cm.depot newm, cm.depot, newm,
              (mergeScan map cm.rest).1 ++ B⟩ := by
          have hdd2 : digitList cm.depot := by rw [hdep]; exact hg.2.2.2.2.2.2.2.1
          have hdn2 : cm.depot ≠ [] := by rw [hdep]; exact hg.2.2.2.2.2.2.2.2.1
          exact matchCall_canon cm.depot newm hdd2 hdn2 hmd hmn _
        have hfall : findCall ((pre ++ canonCall cm.depot newm ++
            (mergeScan map cm.rest).1) ++ B) =
            some (pre, ⟨canonCall cm.depot newm, cm.depot, newm,
              (mergeScan map cm.rest).1 ++ B⟩) := by
          have hassoc : (pre ++ canonCall cm.depot newm ++
              (mergeScan map cm.rest).1) ++ B =
              pre ++ (canonCall cm.depot newm ++
                ((mergeScan map cm.rest).1 ++ B)) := by
            simp [List.append_assoc]
          rw [hassoc, findCall_skip _ _
            (hpreskip _ _ (canon_starts_lit cm.depot newm _)),
            findCall_head _ _ matchX]
          simp
        have hfin := mergeScan_eq map
          ((pre ++ canonCall cm.depot newm ++ (mergeScan map cm.rest).1) ++ B)
        rw [hfall] at hfin
        rw [hms]
        rw [hfin]
        simp [hlk, ihr, List.append_assoc]
      · -- equal binding: the original text is kept
        push_neg at hne
        have hms : mergeScan map s =
            (pre ++ cm.whole ++ (mergeScan map cm.rest).1,
             (mergeScan map cm.rest).2.1,
             cm.depot :: (mergeScan map cm.rest).2.2) := by
          rw [mergeScan_eq, hfc]
          simp [hlk, hne]
        have matchX : matchCall (cm.whole ++ ((mergeScan map cm.rest).1 ++ B)) =
            some ⟨cm.whole, cm.depot, cm.manifest,
              (mergeScan map cm.rest).1 ++ B⟩ := by
          rw [hwhole, hdep, hman]
          exact matchCall_render cp hg _
        have hfall : findCall ((pre ++ cm.whole ++ (mergeScan map cm.rest).1) ++ B) =
            some (pre, ⟨cm.whole, cm.depot, cm.manifest,
              (mergeScan map cm.rest).1 ++ B⟩) := by
          have hassoc : (pre ++ cm.whole ++ (mergeScan map cm.rest).1) ++ B =
              pre ++ (cm.whole ++ ((mergeScan map cm.rest).1 ++ B)) := by
            simp [List.append_assoc]
          rw [hassoc, findCall_skip _ _
            (hpreskip _ _ (whole_starts_lit cm cp hwhole _)),
            findCall_head _ _ matchX]
          simp
        have hfin := mergeScan_eq map
          ((pre ++ cm.whole ++ (mergeScan map cm.rest).1) ++ B)
        rw [hfall] at hfin
        rw [hms]
        rw [hfin]
        simp [hlk, hne, ihr, List.append_assoc]

theorem mergeScan_skip_seg (map : List (List Char × List Char))
    (seg X : List Char)
    (h : ∀ k, k < seg.length → matchCall (seg.drop k ++ X) = none) :
    mergeScan map (seg ++ X) =
      (seg ++ (mergeScan map X).1, (mergeScan map X).2.1,
        (mergeScan map X).2.2) := by
  have hskip := findCall_skip seg X h
  rcases hfX : findCall X with _ | ⟨preX, cmX⟩
  · rw [hfX] at hskip
    simp only [Option.map_none'] at hskip
    have h1 : mergeScan map (seg ++ X) = (seg ++ X, 0, []) := by
      rw [mergeScan_eq, hskip]
    have h2 : mergeScan map X = (X, 0, []) := by rw [mergeScan_eq, hfX]
    rw [h1, h2]
  · rw [hfX] at hskip
    simp only [Option.map_some'] at hskip
    have h1 := mergeScan_eq map (seg ++ X)
    rw [hskip] at h1
    have h2 := mergeScan_eq map X
    rw [hfX] at h2
    rw [h1, h2]
    rcases hlk : lookupL map cmX.depot with _ | newm
    · simp [hlk, List.append_assoc]
    · by_cases hne : newm ≠ cmX.manifest
      · simp [hlk, hne, List.append_assoc]
      · simp [hlk, hne, List.append_assoc]

theorem matchCall_cons_ne_s (c : Char) (hc : ¬c = 's') (X : List Char) :
    matchCall (c :: X) = none := by
  unfold matchCall
  have hdl : dropLit LIT (c :: X) = none := by
    show dropLit ('s' :: "etManifestid".data) (c :: X) = none
    simp [dropLit, hc]
  rw [hdl]
  rfl

/-- No suffix of the marker comment head can start a match, whatever
literal-headed text follows it. -/
theorem hdr_skip (X : List Char) (hX : ∃ a, X = LIT ++ a) :
    ∀ k, k < APPEND_HDR.length → matchCall (APPEND_HDR.drop k ++ X) = none := by
  have hdrCheck : ∀ k, k < APPEND_HDR.length →
      (APPEND_HDR.drop k ++ LIT).take 13 ≠ LIT := by decide
  intro k hk
  cases hcm : matchCall (APPEND_HDR.drop k ++ X) with
  | none => rfl
  | some cm =>
    exfalso
    obtain ⟨a0, heq⟩ := matchCall_starts_lit _ _ hcm
    obtain ⟨a, hXa⟩ := hX
    have hlitlen : LIT.length = 13 := by decide
    have h13 : (APPEND_HDR.drop k ++ LIT).take 13 = LIT := by
      have h1 := congrArg (List.take 13) heq
      rw [hXa, ← List.append_assoc] at h1
      rw [List.take_append_of_le_length (by
        rw [List.length_append, hlitlen]; omega)] at h1
      rw [List.take_append_of_le_length (Nat.le_of_eq hlitlen.symm),
        List.take_of_length_le (Nat.le_of_eq hlitlen)] at h1
      exact h1
    exact hdrCheck k hk h13

theorem lookupL_nodup (map : List (List Char × List Char))
    (hkeys : (map.map Prod.fst).Nodup) (kv : List Char × List Char)
    (hmem : kv ∈ map) : lookupL map kv.1 = some kv.2 := by
  induction map with
  | nil => simp at hmem
  | cons e rest ih =>
    simp only [List.map_cons, List.nodup_cons] at hkeys
    rcases List.mem_cons.mp hmem with he | hm
    · rw [he]
      simp [lookupL]
    · have hne : ¬e.1 = kv.1 := by
        intro heq
        exact hkeys.1 (heq ▸ List.mem_map_of_mem Prod.fst hm)
      simp only [lookupL, if_neg hne]
      exact ih hkeys.2 hm

/-- Scanning the appended canonical call lines: every line matches itself,
every binding agrees with the map, so nothing is updated and each depot is
recorded. -/
theorem calls_scan (map : List (List Char × List Char)) :
    ∀ entries : List (List Char × List Char),
    (∀ kv ∈ entries, digitList kv.1 ∧ kv.1 ≠ [] ∧ digitList kv.2 ∧
      kv.2 ≠ [] ∧ lookupL map kv.1 = some kv.2) →
    mergeScan map
      (joinNl (entries.map (fun kv => canonCall kv.1 kv.2)) ++ ['\n']) =
      (joinNl (entries.map (fun kv => canonCall kv.1 kv.2)) ++ ['\n'], 0,
        entries.map Prod.fst) := by
  intro entries
  induction entries with
  | nil =>
    intro _
    have h1 : findCall ['\n'] = none := by decide
    simp only [List.map_nil, joinNl, List.nil_append, List.map_nil]
    rw [mergeScan_eq, h1]
  | cons e rest ih =>
    intro hall
    obtain ⟨hd1, hd2, hd3, hd4, hd5⟩ := hall e (List.mem_cons_self e rest)
    have ihr := ih (fun kv hkv => hall kv (List.mem_cons_of_mem e hkv))
    cases hrest : rest with
    | nil =>
      simp only [List.map_cons, List.map_nil, joinNl]
      have hm := matchCall_canon e.1 e.2 hd1 hd2 hd3 hd4 ['\n']
      have hfc := findCall_head _ _ hm
      rw [mergeScan_eq, hfc]
      have hsc : mergeScan map ['\n'] = (['\n'], 0, []) := by
        rw [mergeScan_eq]
        have h1 : findCall ['\n'] = none := by decide
        rw [h1]
      simp [hd5, hsc]
    | cons e2 rest2 =>
      rw [← hrest]
      have hjoin : joinNl ((e :: rest).map (fun kv => canonCall kv.1 kv.2)) =
          canonCall e.1 e.2 ++ '\n' ::
            joinNl (rest.map (fun kv => canonCall kv.1 kv.2)) := by
        rw [hrest]
        simp only [List.map_cons, joinNl]
      rw [hjoin]
      have hassoc : (canonCall e.1 e.2 ++ '\n' ::
          joinNl (rest.map (fun kv => canonCall kv.1 kv.2))) ++ ['\n'] =
          canonCall e.1 e.2 ++ ('\n' ::
            (joinNl (rest.map (fun kv => canonCall kv.1 kv.2)) ++ ['\n'])) := by
        simp [List.append_assoc]
      rw [hassoc]
      have hm := matchCall_canon e.1 e.2 hd1 hd2 hd3 hd4
        ('\n' :: (joinNl (rest.map (fun kv => canonCall kv.1 kv.2)) ++ ['\n']))
      have hfc := findCall_head _ _ hm
      rw [mergeScan_eq, hfc]
      have hnl : mergeScan map ('\n' ::
          (joinNl (rest.map (fun kv => canonCall kv.1 kv.2)) ++ ['\n'])) =
          ('\n' :: (joinNl (rest.map (fun kv => canonCall kv.1 kv.2)) ++ ['\n']),
            0, rest.map Prod.fst) := by
        have hone : ∀ k, k < (['\n'] : List Char).length →
            matchCall ((['\n'] : List Char).drop k ++
              (joinNl (rest.map (fun kv => canonCall kv.1 kv.2)) ++ ['\n'])) =
              none := by
          intro k hk
          simp only [List.length_singleton] at hk
          interval_cases k
          exact matchCall_cons_ne_s '\n' (by decide) _
        have := mergeScan_skip_seg map ['\n']
          (joinNl (rest.map (fun kv => canonCall kv.1 kv.2)) ++ ['\n']) hone
        rw [ihr] at this
        simpa using this
      simp [hd5, hnl]

theorem isEmpty_true {α : Type} (l : List α) (h : l.isEmpty = true) :
    l = [] := by
  cases l with
  | nil => rfl
  | cons a as => simp at h

/-- The appended canonical lines start with the pattern literal. -/
theorem joinNl_canon_lit (ta : List (List Char × List Char)) (hne : ta ≠ []) :
    ∃ a, joinNl (ta.map (fun kv => canonCall kv.1 kv.2)) ++ ['\n'] =
      LIT ++ a := by
  cases ta with
  | nil => exact absurd rfl hne
  | cons e rest =>
    cases rest with
    | nil =>
      simp only [List.map_cons, List.map_nil, joinNl]
      exact canon_starts_lit e.1 e.2 ['\n']
    | cons e2 rest2 =>
      simp only [List.map_cons, joinNl]
      obtain ⟨a, ha⟩ := canon_starts_lit e.1 e.2
        ('\n' :: (joinNl (canonCall e2.1 e2.2 ::
          rest2.map (fun kv => canonCall kv.1 kv.2)) ++ ['\n']))
      exact ⟨a, by rw [← ha]; simp [List.append_assoc]⟩

/-- Second-run counts: rerunning the merge step on its own output yields
zero updates and zero appends. -/
theorem mergeManifestIds_second (map : List (List Char × List Char))
    (hkeys : (map.map Prod.fst).Nodup)
    (hdig : ∀ kv ∈ map,
      digitList kv.1 ∧ kv.1 ≠ [] ∧ digitList kv.2 ∧ kv.2 ≠ [])
    (content : List Char) :
    (mergeManifestIds map (mergeManifestIds map content).1).2.1 = 0 ∧
    (mergeManifestIds map (mergeManifestIds map content).1).2.2 = 0 := by
  by_cases hta : (map.filter
      (fun kv => !((mergeScan map content).2.2.contains kv.1))).isEmpty = true
  · -- nothing appended: the output is the scan output
    have hout : (mergeManifestIds map content).1 =
        (mergeScan map content).1 := by
      simp only [mergeManifestIds]
      rw [if_pos hta]
    have hscan2 : mergeScan map (mergeScan map content).1 =
        ((mergeScan map content).1, 0, (mergeScan map content).2.2) := by
      have h := mergeScan_rescan map hdig content.length content []
        (Nat.le_refl _) (Or.inl rfl)
      have hm0 : mergeScan map ([] : List Char) = ([], 0, []) := rfl
      rw [hm0] at h
      simpa using h
    rw [hout]
    constructor
    · simp only [mergeManifestIds]
      rw [hscan2]
    · simp only [mergeManifestIds]
      rw [hscan2]
      have h0 : map.filter
          (fun kv => !((mergeScan map content).2.2.contains kv.1)) = [] :=
        isEmpty_true _ hta
      simp only [h0, List.length_nil]
  · -- an appended block follows the scan output
    have htane : map.filter
        (fun kv => !((mergeScan map content).2.2.contains kv.1)) ≠ [] := by
      intro h0
      rw [h0] at hta
      exact hta rfl
    have hout : (mergeManifestIds map content).1 =
        (mergeScan map content).1 ++ (APPEND_HDR ++
          (joinNl ((map.filter
            (fun kv => !((mergeScan map content).2.2.contains kv.1))).map
              (fun kv => canonCall kv.1 kv.2)) ++ ['\n'])) := by
      simp only [mergeManifestIds]
      rw [if_neg (by simpa using htane)]
      simp [List.append_assoc]
    have hcalls := calls_scan map
      (map.filter (fun kv => !((mergeScan map content).2.2.contains kv.1)))
      (fun kv hkv => by
        have hmem : kv ∈ map := (List.mem_filter.mp hkv).1
        obtain ⟨a1, a2, a3, a4⟩ := hdig kv hmem
        exact ⟨a1, a2, a3, a4, lookupL_nodup map hkeys kv hmem⟩)
    have hblock : mergeScan map (APPEND_HDR ++
        (joinNl ((map.filter
          (fun kv => !((mergeScan map content).2.2.contains kv.1))).map
            (fun kv => canonCall kv.1 kv.2)) ++ ['\n'])) =
        (APPEND_HDR ++
          (joinNl ((map.filter
            (fun kv => !((mergeScan map content).2.2.contains kv.1))).map
              (fun kv => canonCall kv.1 kv.2)) ++ ['\n']), 0,
          (map.filter
            (fun kv => !((mergeScan map content).2.2.contains kv.1))).map
              Prod.fst) := by
      have hseg := mergeScan_skip_seg map APPEND_HDR
        (joinNl ((map.filter
          (fun kv => !((mergeScan map content).2.2.contains kv.1))).map
            (fun kv => canonCall kv.1 kv.2)) ++ ['\n'])
        (hdr_skip _ (joinNl_canon_lit _ htane))
      rw [hcalls] at hseg
      simpa using hseg
    have hBshape : ∃ a, APPEND_HDR ++
        (joinNl ((map.filter
          (fun kv => !((mergeScan map content).2.2.contains kv.1))).map
            (fun kv => canonCall kv.1 kv.2)) ++ ['\n']) =
        '\n' :: '-' :: a := by
      refine ⟨"- Appended by Yeyo Updater --\n".data ++
        (joinNl ((map.filter
          (fun kv => !((mergeScan map content).2.2.contains kv.1))).map
            (fun kv => canonCall kv.1 kv.2)) ++ ['\n']), ?_⟩
      have hhdr : APPEND_HDR =
          '\n' :: '-' :: "- Appended by Yeyo Updater --\n".data := by decide
      rw [hhdr]
      simp
    have hscan2 : mergeScan map ((mergeManifestIds map content).1) =
        ((mergeManifestIds map content).1, 0,
          (mergeScan map content).2.2 ++
            (map.filter
              (fun kv => !((mergeScan map content).2.2.contains kv.1))).map
                Prod.fst) := by
      rw [hout]
      have h := mergeScan_rescan map hdig content.length content _
        (Nat.le_refl _) (Or.inr hBshape)
      rw [hblock] at h
      simpa using h
    have hproj1 : (mergeManifestIds map (mergeManifestIds map content).1).2.1 =
        (mergeScan map (mergeManifestIds map content).1).2.1 := rfl
    have hproj2 : (mergeManifestIds map (mergeManifestIds map content).1).2.2 =
        (map.filter (fun kv =>
          !((mergeScan map
            (mergeManifestIds map content).1).2.2.contains kv.1))).length :=
      rfl
    constructor
    · rw [hproj1, hscan2]
    · rw [hproj2]
      have hfilter : map.filter (fun kv =>
          !(((mergeScan map content).2.2 ++
            (map.filter
              (fun kv => !((mergeScan map content).2.2.contains kv.1))).map
                Prod.fst).contains kv.1)) = [] := by
        rw [List.filter_eq_nil_iff]
        intro kv hkv
        simp only [Bool.not_eq_true', Bool.not_eq_false]
        by_cases hc : (mergeScan map content).2.2.contains kv.1 = true
        · have hm : kv.1 ∈ (mergeScan map content).2.2 := by simpa using hc
          have hm2 : kv.1 ∈ (mergeScan map content).2.2 ++
              (map.filter
                (fun kv => !((mergeScan map content).2.2.contains kv.1))).map
                  Prod.fst :=
            List.mem_append.mpr (Or.inl hm)
          simpa using hm2
        · have hmemta : kv ∈ map.filter
              (fun kv => !((mergeScan map content).2.2.contains kv.1)) :=
            List.mem_filter.mpr ⟨hkv, by simpa using hc⟩
          have hk : kv.1 ∈ (map.filter
              (fun kv => !((mergeScan map content).2.2.contains kv.1))).map
                Prod.fst :=
            List.mem_map_of_mem Prod.fst hmemta
          have hm2 : kv.1 ∈ (mergeScan map content).2.2 ++
              (map.filter
                (fun kv => !((mergeScan map content).2.2.contains kv.1))).map
                  Prod.fst :=
            List.mem_append.mpr (Or.inr hk)
          simpa using hm2
      simp only [hscan2]
      rw [hfilter]
      rfl

/-- C7: `mergeManifestIds` (the setManifestid update step of
`update_game_files`, commands.rs:738-791) is idempotent: when the binding
map has distinct keys and digit-string keys and values (as produced by the
caller's regex captures), running the step a second time with the same map
on the file produced by the first run yields `updated + appended = 0`; and
on each run the file is written back exactly when `updated + appended > 0`. -/
theorem merge_manifest_idempotent (map : List (List Char × List Char))
    (content : List Char)
    (hkeys : (map.map Prod.fst).Nodup)
    (hdig : ∀ kv ∈ map,
      digitList kv.1 ∧ kv.1 ≠ [] ∧ digitList kv.2 ∧ kv.2 ≠ []) :
    (update_game_files_merge map
        (update_game_files_merge map content).fileContent).updated +
      (update_game_files_merge map
        (update_game_files_merge map content).fileContent).appended = 0 ∧
    ((update_game_files_merge map content).wroteBack = true ↔
      0 < (update_game_files_merge map content).updated +
        (update_game_files_merge map content).appended) ∧
    ((update_game_files_merge map
        (update_game_files_merge map content).fileContent).wroteBack = true ↔
      0 < (update_game_files_merge map
          (update_game_files_merge map content).fileContent).updated +
        (update_game_files_merge map
          (update_game_files_merge map content).fileContent).appended) := by
  obtain ⟨hu2, ha2⟩ := mergeManifestIds_second map hkeys hdig content
  have hproj : ∀ c, (update_game_files_merge map c).updated =
      (mergeManifestIds map c).2.1 ∧
      (update_game_files_merge map c).appended =
        (mergeManifestIds map c).2.2 := by
    intro c
    by_cases h : 0 < (mergeManifestIds map c).2.1 +
        (mergeManifestIds map c).2.2
    · simp only [update_game_files_merge]
      rw [if_pos h]
      exact ⟨rfl, rfl⟩
    · simp only [update_game_files_merge]
      rw [if_neg h]
      exact ⟨rfl, rfl⟩
  have hwb : ∀ c, (update_game_files_merge map c).wroteBack = true ↔
      0 < (update_game_files_merge map c).updated +
        (update_game_files_merge map c).appended := by
    intro c
    rw [(hproj c).1, (hproj c).2]
    by_cases h : 0 < (mergeManifestIds map c).2.1 +
        (mergeManifestIds map c).2.2
    · simp only [update_game_files_merge]
      rw [if_pos h]
      simp [h]
    · simp only [update_game_files_merge]
      rw [if_neg h]
      simp [h]
  have hzero : (update_game_files_merge map
        (update_game_files_merge map content).fileContent).updated +
      (update_game_files_merge map
        (update_game_files_merge map content).fileContent).appended = 0 := by
    by_cases h : 0 < (mergeManifestIds map content).2.1 +
        (mergeManifestIds map content).2.2
    · have hfc : (update_game_files_merge map content).fileContent =
          (mergeManifestIds map content).1 := by
        simp only [update_game_files_merge]
        rw [if_pos h]
      rw [hfc, (hproj _).1, (hproj _).2, hu2, ha2]
    · have hfc : (update_game_files_merge map content).fileContent =
          content := by
        simp only [update_game_files_merge]
        rw [if_neg h]
      rw [hfc, (hproj _).1, (hproj _).2]
      omega
  exact ⟨hzero, hwb content, hwb _⟩

/-- Closed instance of `merge_manifest_idempotent` at a concrete map and
file. -/
theorem merge_manifest_idempotent_witness :
    (((([(['1'], ['3'])] : List (List Char × List Char))).map
        Prod.fst).Nodup) ∧
    ((update_game_files_merge [(['1'], ['3'])]
        (update_game_files_merge [(['1'], ['3'])]
          ("setManifestid(1, \"2\", 0)".data)).fileContent).updated +
      (update_game_files_merge [(['1'], ['3'])]
        (update_game_files_merge [(['1'], ['3'])]
          ("setManifestid(1, \"2\", 0)".data)).fileContent).appended = 0 ∧
    ((update_game_files_merge [(['1'], ['3'])]
        ("setManifestid(1, \"2\", 0)".data)).wroteBack = true ↔
      0 < (update_game_files_merge [(['1'], ['3'])]
          ("setManifestid(1, \"2\", 0)".data)).updated +
        (update_game_files_merge [(['1'], ['3'])]
          ("setManifestid(1, \"2\", 0)".data)).appended) ∧
    ((update_game_files_merge [(['1'], ['3'])]
        (update_game_files_merge [(['1'], ['3'])]
          ("setManifestid(1, \"2\", 0)".data)).fileContent).wroteBack =
        true ↔
      0 < (update_game_files_merge [(['1'], ['3'])]
          (update_game_files_merge [(['1'], ['3'])]
            ("setManifestid(1, \"2\", 0)".data)).fileContent).updated +
        (update_game_files_merge [(['1'], ['3'])]
          (update_game_files_merge [(['1'], ['3'])]
            ("setManifestid(1, \"2\", 0)".data)).fileContent).appended)) :=
  ⟨by decide, merge_manifest_idempotent [(['1'], ['3'])]
    ("setManifestid(1, \"2\", 0)".data) (by decide)
    (by simp only [digitList]; decide)⟩

/-! ### Part D: `sync_dlcs_in_lua` (commands.rs:924-969) -/

/-- Strip one trailing carriage return: the `\r\n` line ending of Rust
`str::lines`. -/
def rstripCr (l : List Char) : List Char :=
  if l.getLast? = some '\r' then l.dropLast else l

/-- `str::lines`: split at `\n`, stripping a `\r` that precedes it; the
final line ending is optional and the empty string has no lines. `acc`
holds the current line in reverse. -/
def linesRec (acc : List Char) : List Char → List (List Char)
  | [] => if acc.isEmpty then [] else [acc.reverse]
  | c :: rest =>
    if c = '\n' then rstripCr acc.reverse :: linesRec [] rest
    else linesRec (c :: acc) rest

/-- The lines of a file. -/
def linesOf (s : List Char) : List (List Char) := linesRec [] s

/-- The literal head of the `addappid` pattern. -/
def ALIT : List Char := "addappid".data

/-- Matcher for `addappid\s*\(\s*(\d+)\s*\)` at the start of the input,
returning the digit capture. -/
def matchAdd (s : List Char) : Option (List Char) :=
  (dropLit ALIT s).bind fun s1 =>
  (expectCh '(' (spanP isWs s1).2).bind fun s3 =>
  let d := (spanP isDigitCh (spanP isWs s3).2).1
  let s5 := (spanP isDigitCh (spanP isWs s3).2).2
  if d.isEmpty then none else
  (expectCh ')' (spanP isWs s5).2).map fun _ => d

/-- `Regex::captures`: the leftmost `addappid` match of a line, returning
its digit capture. -/
def findAdd : List Char → Option (List Char)
  | [] => none
  | c :: s =>
    match matchAdd (c :: s) with
    | some cap => some cap
    | none => findAdd s

/-- The filter closure of `sync_dlcs_in_lua` (commands.rs:936-949): keep a
line unless it carries an `addappid` call whose id differs from the main
app id. -/
def keepLine (primary line : List Char) : Bool :=
  match findAdd line with
  | some cap => decide (cap = primary)
  | none => true

/-- The text pushed before the synced DLC block (commands.rs:959). -/
def HDR2 : List Char := "\n-- DLCs Synced by Oracle --\n".data

/-- The header's own line. -/
def HDRLINE : List Char := "-- DLCs Synced by Oracle --".data

/-- `format!("addappid({})\n", dlc_id)` without its newline. -/
def addLine (d : List Char) : List Char := "addappid(".data ++ d ++ [')']

/-- The pushed DLC block (commands.rs:960-962). -/
def dlcBlock : List (List Char) → List Char
  | [] => []
  | d :: ds => addLine d ++ '\n' :: dlcBlock ds

/-- Steps 3-5 of `sync_dlcs_in_lua` (commands.rs:934-966): filter the
lines, join with newlines, append the new DLC set under the header, and
write unconditionally (the `Bool` records that `fs::write` ran). -/
def sync_dlcs_in_lua (primary : List Char) (desired : List (List Char))
    (content : List Char) : List Char × Bool :=
  let kept := (linesOf content).filter (keepLine primary)
  let nc0 := joinNl kept
  let nc1 :=
    if desired.isEmpty then nc0
    else (if ¬nc0.isEmpty ∧ nc0.getLast? ≠ some '\n' then nc0 ++ ['\n']
      else nc0) ++ HDR2 ++ dlcBlock desired
  (nc1, true)

/-- The `addappid` ids carried by a file's lines. -/
def addIds (s : List Char) : List (List Char) :=
  (linesOf s).filterMap findAdd

/-! ### Part D lemmas -/

theorem rstripCr_subset (l : List Char) : ∀ c ∈ rstripCr l, c ∈ l := by
  intro c hc
  unfold rstripCr at hc
  by_cases h : l.getLast? = some '\r'
  · rw [if_pos h] at hc
    exact (List.dropLast_sublist l).subset hc
  · rw [if_neg h] at hc
    exact hc

theorem linesRec_no_nl (s : List Char) : ∀ acc, '\n' ∉ acc →
    ∀ l ∈ linesRec acc s, '\n' ∉ l := by
  induction s with
  | nil =>
    intro acc hacc l hl
    by_cases he : acc.isEmpty
    · simp [linesRec, he] at hl
    · simp only [linesRec, he, Bool.false_eq_true, if_false,
        List.mem_singleton] at hl
      rw [hl]
      simpa using hacc
  | cons c rest ih =>
    intro acc hacc l hl
    simp only [linesRec] at hl
    by_cases hc : c = '\n'
    · rw [if_pos hc] at hl
      rcases List.mem_cons.mp hl with h1 | h1
      · rw [h1]
        intro hmem
        exact hacc (by simpa using rstripCr_subset _ _ hmem)
      · exact ih [] (by simp) l h1
    · rw [if_neg hc] at hl
      refine ih (c :: acc) ?_ l hl
      intro hmem
      rcases List.mem_cons.mp hmem with h1 | h1
      · exact hc h1.symm
      · exact hacc h1

theorem linesOf_no_nl (s : List Char) : ∀ l ∈ linesOf s, '\n' ∉ l :=
  linesRec_no_nl s [] (by simp)

theorem linesRec_line (p : List Char) : ∀ acc rest, '\n' ∉ p →
    linesRec acc (p ++ '\n' :: rest) =
      rstripCr (acc.reverse ++ p) :: linesRec [] rest := by
  induction p with
  | nil =>
    intro acc rest _
    simp [linesRec]
  | cons c p2 ih =>
    intro acc rest hnl
    have hc : ¬(c = '\n') := by
      intro h
      exact hnl (by rw [← h]; exact List.mem_cons_self c p2)
    have hnl2 : '\n' ∉ p2 := fun h => hnl (List.mem_cons_of_mem c h)
    simp only [List.cons_append, linesRec]
    rw [if_neg hc]
    simp only [List.append_eq]
    rw [ih (c :: acc) rest hnl2]
    have he : (c :: acc).reverse ++ p2 = acc.reverse ++ c :: p2 := by
      simp
    rw [he]

theorem linesRec_join (K : List (List Char)) :
    K ≠ [] → (∀ l ∈ K, '\n' ∉ l ∧ rstripCr l = l) →
    ∀ rest, linesRec [] (joinNl K ++ '\n' :: rest) =
      K ++ linesRec [] rest := by
  induction K with
  | nil => exact fun hne _ _ => absurd rfl hne
  | cons k K2 ih =>
    intro _ hK rest
    obtain ⟨hknl, hkcr⟩ := hK k (List.mem_cons_self k K2)
    cases K2 with
    | nil =>
      simp only [joinNl]
      rw [linesRec_line k [] rest hknl]
      simp [hkcr]
    | cons k2 K3 =>
      have hjoin : joinNl (k :: k2 :: K3) = k ++ '\n' :: joinNl (k2 :: K3) :=
        rfl
      rw [hjoin]
      have ha : (k ++ '\n' :: joinNl (k2 :: K3)) ++ '\n' :: rest =
          k ++ '\n' :: (joinNl (k2 :: K3) ++ '\n' :: rest) := by
        simp
      rw [ha, linesRec_line k [] _ hknl]
      rw [ih (by simp) (fun l hl => hK l (List.mem_cons_of_mem k hl)) rest]
      simp [hkcr]

theorem addLine_clean (d : List Char) (hd : digitList d) :
    '\n' ∉ addLine d ∧ rstripCr (addLine d) = addLine d := by
  have hlast : (addLine d).getLast? = some ')' := by
    unfold addLine
    exact List.getLast?_concat _
  constructor
  · intro hmem
    unfold addLine at hmem
    rcases List.mem_append.mp hmem with h | h
    · rcases List.mem_append.mp h with h2 | h2
      · exact absurd h2 (by decide)
      · exact absurd (hd '\n' h2) (by decide)
    · exact absurd h (by decide)
  · unfold rstripCr
    rw [if_neg (by rw [hlast]; decide)]

theorem linesRec_dlcBlock (desired : List (List Char))
    (hds : ∀ d ∈ desired, digitList d) :
    linesRec [] (dlcBlock desired) = desired.map addLine := by
  induction desired with
  | nil => rfl
  | cons d ds ih =>
    obtain ⟨h1, h2⟩ := addLine_clean d (hds d (List.mem_cons_self d ds))
    simp only [dlcBlock, List.map_cons]
    have ha : addLine d ++ '\n' :: dlcBlock ds =
        addLine d ++ '\n' :: dlcBlock ds := rfl
    rw [linesRec_line (addLine d) [] _ h1]
    rw [ih (fun x hx => hds x (List.mem_cons_of_mem d hx))]
    simp [h2]

theorem joinNl_eq_nil (K : List (List Char)) (h : joinNl K = []) :
    K = [] ∨ K = [[]] := by
  cases K with
  | nil => exact Or.inl rfl
  | cons k K2 =>
    cases K2 with
    | nil =>
      simp only [joinNl] at h
      exact Or.inr (by rw [h])
    | cons k2 K3 =>
      exfalso
      have : joinNl (k :: k2 :: K3) = k ++ '\n' :: joinNl (k2 :: K3) := rfl
      rw [this] at h
      rcases List.append_eq_nil.mp h with ⟨_, h2⟩
      exact List.cons_ne_nil _ _ h2

theorem spanP_cons_neg (p : Char → Bool) (c : Char) (x : List Char)
    (hc : p c = false) : spanP p (c :: x) = ([], c :: x) := by
  have h := spanP_eq p [] (c :: x) (by simp) (notHead_cons p c hc x)
  simpa using h

theorem matchAdd_addLine (d : List Char) (hd : digitList d)
    (hne : d ≠ []) : matchAdd (addLine d) = some d := by
  have he : addLine d = ALIT ++ ('(' :: (d ++ [')'])) := by
    unfold addLine
    rw [show ("addappid(".data : List Char) = ALIT ++ ['('] from rfl]
    simp
  have h1 : dropLit ALIT (addLine d) = some ('(' :: (d ++ [')'])) := by
    rw [he]
    exact dropLit_append _ _
  have h2 : spanP isWs ('(' :: (d ++ [')'])) = ([], '(' :: (d ++ [')'])) :=
    spanP_cons_neg isWs '(' _ (by decide)
  have hd1 : notHead isWs (d ++ [')']) := by
    cases d with
    | nil => exact notHead_cons _ _ (by decide) _
    | cons a d2 =>
      exact notHead_cons _ _
        (digit_not_ws (hd a (List.mem_cons_self a d2))) _
  have h3 : spanP isWs (d ++ [')']) = ([], d ++ [')']) := by
    have h := spanP_eq isWs [] (d ++ [')']) (by simp) hd1
    simpa using h
  have h4 : spanP isDigitCh (d ++ [')']) = (d, [')']) :=
    spanP_eq isDigitCh d [')'] hd (notHead_cons _ ')' (by decide) [])
  have h5 : spanP isWs [')'] = ([], [')']) :=
    spanP_cons_neg isWs ')' [] (by decide)
  have hde : d.isEmpty = false := by
    cases d with
    | nil => exact absurd rfl hne
    | cons a d2 => rfl
  simp only [matchAdd, h1, Option.some_bind', h2, expectCh_cons, h3, h4,
    hde, Bool.false_eq_true, if_false, h5, Option.map_some]
  rfl

theorem findAdd_addLine (d : List Char) (hd : digitList d)
    (hne : d ≠ []) : findAdd (addLine d) = some d := by
  have hcons : addLine d = 'a' :: ("ddappid(".data ++ d ++ [')']) := rfl
  rw [hcons]
  simp only [findAdd]
  rw [← hcons, matchAdd_addLine d hd hne]

theorem keepLine_nil (primary : List Char) : keepLine primary [] = true :=
  rfl

theorem keepLine_hdr (primary : List Char) :
    keepLine primary HDRLINE = true := by
  have h : findAdd HDRLINE = none := by decide
  simp [keepLine, h]

theorem keepLine_addLine (primary d : List Char) (hd : digitList d)
    (hne : d ≠ []) (hdp : d ≠ primary) :
    keepLine primary (addLine d) = false := by
  simp only [keepLine, findAdd_addLine d hd hne]
  exact decide_eq_false hdp

theorem linesOf_nl_cons (X : List Char) :
    linesOf ('\n' :: X) = [] :: linesRec [] X := by
  simp [linesOf, linesRec, rstripCr]

theorem linesOf_join (K : List (List Char)) (hne : K ≠ [])
    (hK : ∀ l ∈ K, '\n' ∉ l ∧ rstripCr l = l) (rest : List Char) :
    linesOf (joinNl K ++ '\n' :: rest) = K ++ linesRec [] rest :=
  linesRec_join K hne hK rest

/-- Decomposition of one `sync_dlcs_in_lua` run: its output's lines are the
kept lines, then possibly one empty line, then the header line, then one
`addappid` line per desired id. -/
theorem sync_lines_decomp (primary : List Char) (desired : List (List Char))
    (content : List Char) (hd : desired ≠ [])
    (hds : ∀ d ∈ desired, digitList d)
    (hcl : ∀ l ∈ (linesOf content).filter (keepLine primary),
      '\n' ∉ l ∧ rstripCr l = l) :
    ∃ pad, (pad = [] ∨ pad = [[]]) ∧
      linesOf (sync_dlcs_in_lua primary desired content).1 =
        (linesOf content).filter (keepLine primary) ++ pad ++
          HDRLINE :: desired.map addLine := by
  have hH : HDR2 = '\n' :: (HDRLINE ++ ['\n']) := rfl
  have hdE : ¬(desired.isEmpty = true) := fun h => hd (isEmpty_true _ h)
  have hout : (sync_dlcs_in_lua primary desired content).1 =
      (if ¬(joinNl ((linesOf content).filter (keepLine primary))).isEmpty ∧
          (joinNl ((linesOf content).filter
            (keepLine primary))).getLast? ≠ some '\n' then
        joinNl ((linesOf content).filter (keepLine primary)) ++ ['\n']
      else joinNl ((linesOf content).filter (keepLine primary))) ++
        HDR2 ++ dlcBlock desired := by
    simp only [sync_dlcs_in_lua]
    rw [if_neg hdE]
  have hhdrtail : linesRec [] (HDRLINE ++ '\n' :: dlcBlock desired) =
      HDRLINE :: desired.map addLine := by
    rw [linesRec_line HDRLINE [] _ (by decide)]
    rw [linesRec_dlcBlock desired hds]
    have h9 : rstripCr (([] : List Char).reverse ++ HDRLINE) = HDRLINE := by
      decide
    rw [h9]
  by_cases hcond : ¬(joinNl ((linesOf content).filter
        (keepLine primary))).isEmpty ∧
      (joinNl ((linesOf content).filter
        (keepLine primary))).getLast? ≠ some '\n'
  · -- a newline is pushed before the header
    refine ⟨[[]], Or.inr rfl, ?_⟩
    have hKne : (linesOf content).filter (keepLine primary) ≠ [] := by
      intro h0
      rw [h0] at hcond
      exact hcond.1 rfl
    rw [hout, if_pos hcond]
    have ha : (joinNl ((linesOf content).filter (keepLine primary)) ++
        ['\n']) ++ HDR2 ++ dlcBlock desired =
        joinNl ((linesOf content).filter (keepLine primary)) ++
          '\n' :: ('\n' :: (HDRLINE ++ '\n' :: dlcBlock desired)) := by
      rw [hH]
      simp
    rw [ha, linesOf_join _ hKne hcl _]
    have hb : linesRec [] ('\n' :: (HDRLINE ++ '\n' :: dlcBlock desired)) =
        [] :: linesRec [] (HDRLINE ++ '\n' :: dlcBlock desired) := by
      simp [linesRec, rstripCr]
    rw [hb, hhdrtail]
    simp
  · rw [hout, if_neg hcond]
    by_cases hnc0 : joinNl ((linesOf content).filter
        (keepLine primary)) = []
    · -- joined kept lines empty: the kept list is empty or one empty line
      rcases joinNl_eq_nil _ hnc0 with hK | hK
      · refine ⟨[[]], Or.inr rfl, ?_⟩
        rw [hnc0, hK, hH]
        rw [show (([] : List Char) ++ '\n' :: (HDRLINE ++ ['\n'])) ++
            dlcBlock desired =
            '\n' :: (HDRLINE ++ '\n' :: dlcBlock desired) from by simp]
        rw [linesOf_nl_cons, hhdrtail]
        simp
      · refine ⟨[], Or.inl rfl, ?_⟩
        rw [hnc0, hK, hH]
        rw [show (([] : List Char) ++ '\n' :: (HDRLINE ++ ['\n'])) ++
            dlcBlock desired =
            '\n' :: (HDRLINE ++ '\n' :: dlcBlock desired) from by simp]
        rw [linesOf_nl_cons, hhdrtail]
        simp
    · -- kept lines present and already newline-terminated
      refine ⟨[], Or.inl rfl, ?_⟩
      have hKne : (linesOf content).filter (keepLine primary) ≠ [] := by
        intro h0
        rw [h0] at hnc0
        exact hnc0 rfl
      have ha : joinNl ((linesOf content).filter (keepLine primary)) ++
          HDR2 ++ dlcBlock desired =
          joinNl ((linesOf content).filter (keepLine primary)) ++
            '\n' :: (HDRLINE ++ '\n' :: dlcBlock desired) := by
        rw [hH]
        simp
      rw [ha, linesOf_join _ hKne hcl _]
      rw [hhdrtail]
      simp

theorem filterMap_addLine (desired : List (List Char))
    (hds : ∀ d ∈ desired, digitList d ∧ d ≠ []) :
    (desired.map addLine).filterMap findAdd = desired := by
  induction desired with
  | nil => rfl
  | cons d ds ih =>
    have h1 := findAdd_addLine d (hds d (List.mem_cons_self d ds)).1
      (hds d (List.mem_cons_self d ds)).2
    simp only [List.map_cons, List.filterMap_cons, h1]
    rw [ih (fun x hx => hds x (List.mem_cons_of_mem d hx))]

/-- C8 counterexample: `sync_dlcs_in_lua` is not idempotent in exact file
content — a second run with the same arguments stacks a second header
block. -/
theorem sync_dlcs_idempotence_counterexample :
    (sync_dlcs_in_lua "100".data ["200".data, "300".data]
        (sync_dlcs_in_lua "100".data ["200".data, "300".data]
          "addappid(100)\naddappid(999)".data).1).1 ≠
      (sync_dlcs_in_lua "100".data ["200".data, "300".data]
        "addappid(100)\naddappid(999)".data).1 := by
  decide

/-- C8 (amended): `sync_dlcs_in_lua` replaces the DLC set rather than
merging — when the desired ids are digit strings distinct from the main
app id (and the file has no stray carriage returns), a second run with the
same arguments leaves the file's `addappid` id list unchanged, and each
run performs the disk write; exact file content is NOT preserved (the
header comment line accumulates, see the counterexample). -/
theorem sync_dlcs_dlc_set_stable (primary : List Char)
    (desired : List (List Char)) (content : List Char)
    (hd : desired ≠ [])
    (hds : ∀ d ∈ desired, digitList d ∧ d ≠ [])
    (hprim : ∀ d ∈ desired, d ≠ primary)
    (hcl : ∀ l ∈ linesOf content, rstripCr l = l) :
    addIds (sync_dlcs_in_lua primary desired
        (sync_dlcs_in_lua primary desired content).1).1 =
      addIds (sync_dlcs_in_lua primary desired content).1 ∧
    (sync_dlcs_in_lua primary desired content).2 = true ∧
    (sync_dlcs_in_lua primary desired
        (sync_dlcs_in_lua primary desired content).1).2 = true := by
  refine ⟨?_, rfl, rfl⟩
  have hcl1 : ∀ l ∈ (linesOf content).filter (keepLine primary),
      '\n' ∉ l ∧ rstripCr l = l := by
    intro l hl
    have hm := (List.mem_filter.mp hl).1
    exact ⟨linesOf_no_nl content l hm, hcl l hm⟩
  obtain ⟨pad, hpadE, hdec⟩ := sync_lines_decomp primary desired content hd
    (fun d hdm => (hds d hdm).1) hcl1
  have hfilterK : ((linesOf content).filter (keepLine primary)).filter
      (keepLine primary) = (linesOf content).filter (keepLine primary) :=
    List.filter_eq_self.mpr (fun l hl => (List.mem_filter.mp hl).2)
  have hfilterPad : pad.filter (keepLine primary) = pad := by
    rcases hpadE with h | h <;> rw [h] <;> rfl
  have hfilterA : (desired.map addLine).filter (keepLine primary) = [] := by
    rw [List.filter_eq_nil_iff]
    intro l hl
    obtain ⟨d, hdm, hde⟩ := List.mem_map.mp hl
    rw [← hde]
    rw [keepLine_addLine primary d (hds d hdm).1 (hds d hdm).2
      (hprim d hdm)]
    simp
  have hkept2 : (linesOf (sync_dlcs_in_lua primary desired
        content).1).filter (keepLine primary) =
      (linesOf content).filter (keepLine primary) ++ pad ++ [HDRLINE] := by
    rw [hdec]
    simp only [List.filter_append, List.filter_cons, keepLine_hdr,
      if_true, hfilterK, hfilterPad, hfilterA]
  have hcl2 : ∀ l ∈ (linesOf (sync_dlcs_in_lua primary desired
      content).1).filter (keepLine primary), '\n' ∉ l ∧ rstripCr l = l := by
    rw [hkept2]
    intro l hl
    rcases List.mem_append.mp hl with h1 | h1
    · rcases List.mem_append.mp h1 with h2 | h2
      · exact hcl1 l h2
      · rcases hpadE with h | h
        · rw [h] at h2
          simp at h2
        · rw [h] at h2
          simp only [List.mem_singleton] at h2
          rw [h2]
          exact ⟨by simp, rfl⟩
    · simp only [List.mem_singleton] at h1
      rw [h1]
      exact ⟨by decide, by decide⟩
  obtain ⟨pad2, hpad2E, hdec2⟩ := sync_lines_decomp primary desired
    (sync_dlcs_in_lua primary desired content).1 hd
    (fun d hdm => (hds d hdm).1) hcl2
  have hfmPad : ∀ q : List (List Char), q = [] ∨ q = [[]] →
      q.filterMap findAdd = [] := by
    intro q hq
    rcases hq with h | h <;> rw [h] <;> rfl
  have hfmHdr : ([HDRLINE] : List (List Char)).filterMap findAdd = [] := by
    decide
  have hHn : findAdd HDRLINE = none := by decide
  have haddIds : ∀ s K2 p2, (p2 = [] ∨ p2 = [[]]) →
      linesOf s = K2 ++ p2 ++ HDRLINE :: desired.map addLine →
      addIds s = K2.filterMap findAdd ++ desired := by
    intro s K2 p2 hp hL
    unfold addIds
    rw [hL]
    simp only [List.filterMap_append, hfmPad p2 hp, List.filterMap_cons,
      hHn, filterMap_addLine desired hds]
    simp
  have h1 : addIds (sync_dlcs_in_lua primary desired content).1 =
      ((linesOf content).filter (keepLine primary)).filterMap findAdd ++
        desired :=
    haddIds _ _ pad hpadE hdec
  have h2 : addIds (sync_dlcs_in_lua primary desired
      (sync_dlcs_in_lua primary desired content).1).1 =
      ((linesOf content).filter (keepLine primary) ++ pad ++
        [HDRLINE]).filterMap findAdd ++ desired :=
    haddIds _ _ pad2 hpad2E (by rw [hdec2, hkept2])
  rw [h1, h2]
  simp only [List.filterMap_append, hfmPad pad hpadE, hfmHdr,
    List.append_nil]

/-- Closed instance of `sync_dlcs_dlc_set_stable` at a concrete file. -/
theorem sync_dlcs_dlc_set_stable_witness :
    (∀ d ∈ [("200".data : List Char), "300".data], d ≠ "100".data) ∧
    (addIds (sync_dlcs_in_lua "100".data ["200".data, "300".data]
        (sync_dlcs_in_lua "100".data ["200".data, "300".data]
          "addappid(100)\naddappid(999)".data).1).1 =
      addIds (sync_dlcs_in_lua "100".data ["200".data, "300".data]
        "addappid(100)\naddappid(999)".data).1 ∧
    (sync_dlcs_in_lua "100".data ["200".data, "300".data]
      "addappid(100)\naddappid(999)".data).2 = true ∧
    (sync_dlcs_in_lua "100".data ["200".data, "300".data]
        (sync_dlcs_in_lua "100".data ["200".data, "300".data]
          "addappid(100)\naddappid(999)".data).1).2 = true) :=
  ⟨by decide, sync_dlcs_dlc_set_stable "100".data
    ["200".data, "300".data] "addappid(100)\naddappid(999)".data
    (by decide) (by simp only [digitList]; decide) (by decide) (by decide)⟩

/-- How many of a file's lines carry this `addappid` id. -/
def addIdCount (id s : List Char) : Nat :=
  ((linesOf s).filter (fun l => findAdd l = some id)).length

/-- C9: `sync_dlcs_in_lua` with main app id `100` and desired DLC set
`{200, 300}` on a file with lines `addappid(100)`, `addappid(999)` and
`print(1)` yields exactly one `addappid(100)` line, one `addappid(200)`,
one `addappid(300)`, no `addappid(999)`; and every line of the input
carrying no `addappid` call is kept verbatim among the output's lines. -/
theorem sync_dlcs_example_run (l : List Char)
    (hl : l ∈ linesOf "addappid(100)\naddappid(999)\nprint(1)".data)
    (hna : findAdd l = none) :
    addIdCount "100".data (sync_dlcs_in_lua "100".data
      ["200".data, "300".data]
      "addappid(100)\naddappid(999)\nprint(1)".data).1 = 1 ∧
    addIdCount "200".data (sync_dlcs_in_lua "100".data
      ["200".data, "300".data]
      "addappid(100)\naddappid(999)\nprint(1)".data).1 = 1 ∧
    addIdCount "300".data (sync_dlcs_in_lua "100".data
      ["200".data, "300".data]
      "addappid(100)\naddappid(999)\nprint(1)".data).1 = 1 ∧
    addIdCount "999".data (sync_dlcs_in_lua "100".data
      ["200".data, "300".data]
      "addappid(100)\naddappid(999)\nprint(1)".data).1 = 0 ∧
    l ∈ linesOf (sync_dlcs_in_lua "100".data ["200".data, "300".data]
      "addappid(100)\naddappid(999)\nprint(1)".data).1 := by
  have hlines : linesOf "addappid(100)\naddappid(999)\nprint(1)".data =
      ["addappid(100)".data, "addappid(999)".data, "print(1)".data] := by
    decide
  rw [hlines] at hl
  simp only [List.mem_cons, List.not_mem_nil, or_false] at hl
  rcases hl with h | h | h
  · rw [h] at hna
    exact absurd hna (by decide)
  · rw [h] at hna
    exact absurd hna (by decide)
  · rw [h]
    decide

/-- Closed instance of `sync_dlcs_example_run` at its non-`addappid`
line. -/
theorem sync_dlcs_example_run_witness :
    ("print(1)".data ∈
      linesOf "addappid(100)\naddappid(999)\nprint(1)".data) ∧
    (addIdCount "100".data (sync_dlcs_in_lua "100".data
      ["200".data, "300".data]
      "addappid(100)\naddappid(999)\nprint(1)".data).1 = 1 ∧
    addIdCount "200".data (sync_dlcs_in_lua "100".data
      ["200".data, "300".data]
      "addappid(100)\naddappid(999)\nprint(1)".data).1 = 1 ∧
    addIdCount "300".data (sync_dlcs_in_lua "100".data
      ["200".data, "300".data]
      "addappid(100)\naddappid(999)\nprint(1)".data).1 = 1 ∧
    addIdCount "999".data (sync_dlcs_in_lua "100".data
      ["200".data, "300".data]
      "addappid(100)\naddappid(999)\nprint(1)".data).1 = 0 ∧
    "print(1)".data ∈ linesOf (sync_dlcs_in_lua "100".data
      ["200".data, "300".data]
      "addappid(100)\naddappid(999)\nprint(1)".data).1) :=
  ⟨by decide, sync_dlcs_example_run "print(1)".data (by decide)
    (by decide)⟩

end SourceOracle